import Mathlib

/-!
Shallow embedding of the search and corpus-synchronization engine of the
bible-api repository (lib/bible/index.ts, scripts/ingest-bible.ts,
app/api/search/route.ts), together with proofs settling the frozen claims.

Modelling conventions:
* JavaScript numbers are modelled by `JsNum K`: an exact value of a linear
  ordered field `K` (`ℚ` or `ℝ` in the theorems) plus the IEEE special values
  `nan`, `inf`, `neginf`.  Rounding and overflow are not modelled; the special
  values propagate through `+` and `*` by the IEEE rules.
* Thrown exceptions are modelled with `Except`/`Option` results.
* `Math.sqrt` is an opaque primitive of the runtime; functions that call it
  take a `sqrt : K → K` parameter, instantiated with `Real.sqrt` when the
  exact value matters.
-/

namespace BibleApi

/-- Model of a JavaScript number: a finite exact value or an IEEE special. -/
inductive JsNum (K : Type) where
  | fin (x : K)
  | nan
  | inf
  | neginf
deriving DecidableEq

variable {K : Type} [LinearOrderedField K]

/-- `Number.isFinite`. -/
def JsNum.isFinite : JsNum K → Bool
  | .fin _ => true
  | _ => false

/-- IEEE addition on `JsNum` (exact in the finite case). -/
def JsNum.add : JsNum K → JsNum K → JsNum K
  | .nan, _ => .nan
  | _, .nan => .nan
  | .inf, .neginf => .nan
  | .neginf, .inf => .nan
  | .inf, _ => .inf
  | _, .inf => .inf
  | .neginf, _ => .neginf
  | _, .neginf => .neginf
  | .fin a, .fin b => .fin (a + b)

/-- IEEE multiplication on `JsNum` (exact in the finite case). -/
def JsNum.mul : JsNum K → JsNum K → JsNum K
  | .nan, _ => .nan
  | _, .nan => .nan
  | .inf, .inf => .inf
  | .inf, .neginf => .neginf
  | .neginf, .inf => .neginf
  | .neginf, .neginf => .inf
  | .inf, .fin b => if 0 < b then .inf else if b < 0 then .neginf else .nan
  | .fin a, .inf => if 0 < a then .inf else if a < 0 then .neginf else .nan
  | .neginf, .fin b => if 0 < b then .neginf else if b < 0 then .inf else .nan
  | .fin a, .neginf => if 0 < a then .neginf else if a < 0 then .inf else .nan
  | .fin a, .fin b => .fin (a * b)

/-- One verse row of the in-memory corpus (`VerseRecord` in lib/bible/index.ts). -/
structure VerseRecord (K : Type) where
  book : String
  chapter : Int
  verse : Int
  text : String
  embedding : List (JsNum K)
deriving DecidableEq

/-- A scored verse (`VerseMatch` in lib/bible/index.ts).  The score is stored
as a plain field element because only finite scores are ever inserted. -/
structure VerseMatch (K : Type) where
  verse : VerseRecord K
  score : K
deriving DecidableEq

/-- `dotProduct` from lib/bible/index.ts: throws (`none`) when the lengths
differ, otherwise accumulates `sum += left[i] * right[i]` from `0`. -/
def dotProduct (left right : List (JsNum K)) : Option (JsNum K) :=
  if left.length ≠ right.length then none
  else some ((left.zip right).foldl (fun s p => JsNum.add s (JsNum.mul p.1 p.2)) (JsNum.fin 0))

/-- Placeholder element used for (always in-bounds) list indexing. -/
def defaultMatch : VerseMatch K := ⟨⟨"", 0, 0, "", []⟩, 0⟩

/-- The scan `for (index = 1; ...) if (working[index].score < working[smallestIndex].score)`
of `selectTopMatches`, recursing over the not-yet-scanned suffix.  `i` is the
index of the head of `l` in the full list, `best`/`bestScore` the current
minimum. -/
def findSmallestAux : List (VerseMatch K) → ℕ → ℕ → K → ℕ
  | [], _, best, _ => best
  | m :: rest, i, best, bestScore =>
    if m.score < bestScore then findSmallestAux rest (i + 1) i m.score
    else findSmallestAux rest (i + 1) best bestScore

/-- Index of the first minimum-scoring entry, as `selectTopMatches` computes it. -/
def findSmallest : List (VerseMatch K) → ℕ
  | [] => 0
  | m :: rest => findSmallestAux rest 1 0 m.score

/-- Stable descending insertion (models one step of sorting by
`(left, right) => right.score - left.score`). -/
def insertDesc (m : VerseMatch K) : List (VerseMatch K) → List (VerseMatch K)
  | [] => [m]
  | h :: t => if h.score < m.score then m :: h :: t else h :: insertDesc m t

/-- Model of `working.sort((left, right) => right.score - left.score)`:
a stable sort in descending score order. -/
def sortDesc (l : List (VerseMatch K)) : List (VerseMatch K) :=
  l.foldr insertDesc []

/-- The main loop of `selectTopMatches`: `working` is the working set, the
list argument the remaining verses.  `none` models the `dotProduct` length
mismatch exception propagating out. -/
def selectLoop (queryVector : List (JsNum K)) (limit : ℕ) :
    List (VerseRecord K) → List (VerseMatch K) → Option (List (VerseMatch K))
  | [], working => some working
  | v :: rest, working =>
    match dotProduct queryVector v.embedding with
    | none => none
    | some score =>
      match score with
      | .fin x =>
        if working.length < limit then
          selectLoop queryVector limit rest (working ++ [⟨v, x⟩])
        else if x ≤ (working.getD (findSmallest working) defaultMatch).score then
          selectLoop queryVector limit rest working
        else
          selectLoop queryVector limit rest (working.set (findSmallest working) ⟨v, x⟩)
      | _ => selectLoop queryVector limit rest working

/-- `selectTopMatches` from lib/bible/index.ts. -/
def selectTopMatches (verses : List (VerseRecord K)) (queryVector : List (JsNum K))
    (limit : ℕ) : Option (List (VerseMatch K)) :=
  if limit = 0 then some []
  else (selectLoop queryVector limit verses []).map sortDesc

/-- Number of corpus verses whose similarity score is finite. -/
def finiteScoreCount (queryVector : List (JsNum K)) (verses : List (VerseRecord K)) : ℕ :=
  (verses.filter (fun v =>
    match dotProduct queryVector v.embedding with
    | some s => s.isFinite
    | none => false)).length

/-- The minimum scan is correct: starting from a valid current best over the
already-scanned prefix `pre`, it returns an in-bounds index of a
minimum-scoring entry of the full list. -/
theorem findSmallestAux_spec (rest : List (VerseMatch K)) :
    ∀ (pre : List (VerseMatch K)) (best : ℕ) (bs : K),
      best < pre.length →
      (pre.getD best defaultMatch).score = bs →
      (∀ m ∈ pre, bs ≤ m.score) →
      findSmallestAux rest pre.length best bs < pre.length + rest.length ∧
        ∀ m ∈ pre ++ rest,
          ((pre ++ rest).getD (findSmallestAux rest pre.length best bs) defaultMatch).score
            ≤ m.score := by
  induction rest with
  | nil =>
    intro pre best bs hb hval hmin
    refine ⟨by simpa [findSmallestAux] using hb, ?_⟩
    intro m hm
    rw [List.append_nil] at hm ⊢
    simp only [findSmallestAux]
    rw [hval]
    exact hmin m hm
  | cons m rest ih =>
    intro pre best bs hb hval hmin
    have hsplit : pre ++ m :: rest = (pre ++ [m]) ++ rest := by
      simp
    by_cases hlt : m.score < bs
    · have haux : findSmallestAux (m :: rest) pre.length best bs
          = findSmallestAux rest (pre.length + 1) pre.length m.score := by
        simp [findSmallestAux, hlt]
      have hlen : (pre ++ [m]).length = pre.length + 1 := by simp
      have h2 := ih (pre ++ [m]) pre.length m.score
        (by simp)
        (by
          rw [List.getD_append_right pre [m] defaultMatch pre.length le_rfl]
          simp)
        (by
          intro a ha
          rcases List.mem_append.1 ha with h | h
          · exact le_of_lt (lt_of_lt_of_le hlt (hmin a h))
          · rcases List.mem_singleton.1 h with rfl
            exact le_rfl)
      rw [hlen] at h2
      constructor
      · rw [haux]
        have := h2.1
        simp only [List.length_append, List.length_singleton] at this ⊢
        simp only [List.length_cons]
        omega
      · intro a ha
        rw [haux, hsplit]
        exact h2.2 a (by rw [← hsplit]; exact ha)
    · have haux : findSmallestAux (m :: rest) pre.length best bs
          = findSmallestAux rest (pre.length + 1) best bs := by
        simp [findSmallestAux, hlt]
      have hlen : (pre ++ [m]).length = pre.length + 1 := by simp
      have h2 := ih (pre ++ [m]) best bs
        (by simp; omega)
        (by rw [List.getD_append pre [m] defaultMatch best hb]; exact hval)
        (by
          intro a ha
          rcases List.mem_append.1 ha with h | h
          · exact hmin a h
          · rcases List.mem_singleton.1 h with rfl
            exact le_of_not_lt hlt)
      rw [hlen] at h2
      constructor
      · rw [haux]
        have := h2.1
        simp only [List.length_append, List.length_singleton] at this ⊢
        simp only [List.length_cons]
        omega
      · intro a ha
        rw [haux, hsplit]
        exact h2.2 a (by rw [← hsplit]; exact ha)

/-- The scanned minimum index is in bounds for a nonempty working set. -/
theorem findSmallest_lt_length (l : List (VerseMatch K)) (h : l ≠ []) :
    findSmallest l < l.length := by
  cases l with
  | nil => exact absurd rfl h
  | cons hd t =>
    have := (findSmallestAux_spec t [hd] 0 hd.score (by simp) (by simp) ?_).1
    · simp only [List.length_singleton] at this
      simp only [findSmallest, List.length_cons]
      omega
    · intro m hm
      rcases List.mem_singleton.1 hm with rfl
      exact le_rfl

/-- The entry at the scanned minimum index has the least score. -/
theorem findSmallest_min (l : List (VerseMatch K)) :
    ∀ m ∈ l, (l.getD (findSmallest l) defaultMatch).score ≤ m.score := by
  cases l with
  | nil => intro m hm; cases hm
  | cons hd t =>
    have := (findSmallestAux_spec t [hd] 0 hd.score (by simp) (by simp) ?_).2
    · intro m hm
      simpa [findSmallest] using this m (by simpa using hm)
    · intro m hm
      rcases List.mem_singleton.1 hm with rfl
      exact le_rfl

/-- Insertion preserves the multiset of matches. -/
theorem insertDesc_perm (m : VerseMatch K) (l : List (VerseMatch K)) :
    List.Perm (insertDesc m l) (m :: l) := by
  induction l with
  | nil => simp [insertDesc]
  | cons h t ih =>
    by_cases hc : h.score < m.score
    · simp [insertDesc, hc]
    · simp only [insertDesc, if_neg hc]
      exact (List.Perm.cons h ih).trans (List.Perm.swap m h t)

/-- The final sort is a permutation of the working set. -/
theorem sortDesc_perm (l : List (VerseMatch K)) : List.Perm (sortDesc l) l := by
  induction l with
  | nil => rfl
  | cons a l ih =>
    exact (insertDesc_perm a (sortDesc l)).trans (List.Perm.cons a ih)

/-- Membership in a written list comes from the old list or the new element,
and conversely an old element survives unless it sat at the written index. -/
theorem mem_set_or {α : Type} (l : List α) (i : ℕ) (y a : α) (ha : a ∈ l) :
    a ∈ l.set i y ∨ ∃ h : i < l.length, a = l[i] := by
  rcases List.mem_iff_getElem.1 ha with ⟨j, hj, rfl⟩
  by_cases hij : i = j
  · subst hij
    exact Or.inr ⟨hj, rfl⟩
  · left
    have hj' : j < (l.set i y).length := by simpa using hj
    have : (l.set i y)[j] = l[j] := List.getElem_set_of_ne hij y hj'
    rw [← this]
    exact List.getElem_mem hj'

/-- Step equation: a length-mismatched embedding propagates the exception. -/
theorem selectLoop_cons_none {q : List (JsNum K)} {limit : ℕ} {v : VerseRecord K}
    {rest : List (VerseRecord K)} {ms : List (VerseMatch K)}
    (hdp : dotProduct q v.embedding = none) :
    selectLoop q limit (v :: rest) ms = none := by
  simp [selectLoop, hdp]

/-- Step equation: a finite score is inserted while the working set is not full. -/
theorem selectLoop_cons_insert {q : List (JsNum K)} {limit : ℕ} {v : VerseRecord K}
    {rest : List (VerseRecord K)} {ms : List (VerseMatch K)} {x : K}
    (hdp : dotProduct q v.embedding = some (JsNum.fin x)) (hfull : ms.length < limit) :
    selectLoop q limit (v :: rest) ms = selectLoop q limit rest (ms ++ [⟨v, x⟩]) := by
  simp only [selectLoop, hdp]
  rw [if_pos hfull]

/-- Step equation: a finite score no greater than the current minimum is skipped. -/
theorem selectLoop_cons_skip {q : List (JsNum K)} {limit : ℕ} {v : VerseRecord K}
    {rest : List (VerseRecord K)} {ms : List (VerseMatch K)} {x : K}
    (hdp : dotProduct q v.embedding = some (JsNum.fin x)) (hfull : ¬ ms.length < limit)
    (hskip : x ≤ (ms.getD (findSmallest ms) defaultMatch).score) :
    selectLoop q limit (v :: rest) ms = selectLoop q limit rest ms := by
  simp only [selectLoop, hdp]
  rw [if_neg hfull, if_pos hskip]

/-- Step equation: a finite score above the current minimum replaces it. -/
theorem selectLoop_cons_replace {q : List (JsNum K)} {limit : ℕ} {v : VerseRecord K}
    {rest : List (VerseRecord K)} {ms : List (VerseMatch K)} {x : K}
    (hdp : dotProduct q v.embedding = some (JsNum.fin x)) (hfull : ¬ ms.length < limit)
    (hskip : ¬ x ≤ (ms.getD (findSmallest ms) defaultMatch).score) :
    selectLoop q limit (v :: rest) ms
      = selectLoop q limit rest (ms.set (findSmallest ms) ⟨v, x⟩) := by
  simp only [selectLoop, hdp]
  rw [if_neg hfull, if_neg hskip]

/-- Step equation: a non-finite score is skipped defensively. -/
theorem selectLoop_cons_nonfin {q : List (JsNum K)} {limit : ℕ} {v : VerseRecord K}
    {rest : List (VerseRecord K)} {ms : List (VerseMatch K)} {s : JsNum K}
    (hdp : dotProduct q v.embedding = some s) (hs : s.isFinite = false) :
    selectLoop q limit (v :: rest) ms = selectLoop q limit rest ms := by
  cases s with
  | fin x => simp [JsNum.isFinite] at hs
  | nan => simp only [selectLoop, hdp]
  | inf => simp only [selectLoop, hdp]
  | neginf => simp only [selectLoop, hdp]

/-- The working-set length after the loop is the number of finite-scoring
processed verses, capped at `limit`. -/
theorem selectLoop_length (q : List (JsNum K)) (limit : ℕ) :
    ∀ (vs : List (VerseRecord K)) (ms r : List (VerseMatch K)),
      ms.length ≤ limit → selectLoop q limit vs ms = some r →
      r.length = min (ms.length + finiteScoreCount q vs) limit := by
  intro vs
  induction vs with
  | nil =>
    intro ms r hle h
    simp only [selectLoop, Option.some.injEq] at h
    subst h
    simp [finiteScoreCount, Nat.min_eq_left hle]
  | cons v rest ih =>
    intro ms r hle h
    have hcnt : ∀ b, (match dotProduct q v.embedding with
        | some s => s.isFinite
        | none => false) = b →
        finiteScoreCount q (v :: rest)
          = (if b then 1 else 0) + finiteScoreCount q rest := by
      intro b hb
      cases b
      · simp [finiteScoreCount, List.filter_cons, hb]
      · simp [finiteScoreCount, List.filter_cons, hb, Nat.add_comm]
    cases hdp : dotProduct q v.embedding with
    | none =>
      rw [show selectLoop q limit (v :: rest) ms = none by
        simp [selectLoop, hdp]] at h
      cases h
    | some s =>
      cases s with
      | fin x =>
        have hfin : finiteScoreCount q (v :: rest) = 1 + finiteScoreCount q rest := by
          simpa using hcnt true (by rw [hdp]; rfl)
        by_cases hfull : ms.length < limit
        · have hstep : selectLoop q limit (v :: rest) ms
              = selectLoop q limit rest (ms ++ [⟨v, x⟩]) := by
            simp only [selectLoop, hdp]
            rw [if_pos hfull]
          rw [hstep] at h
          have := ih (ms ++ [⟨v, x⟩]) r (by simp; omega) h
          rw [hfin]
          simp only [List.length_append, List.length_singleton] at this
          rw [this]
          omega
        · have hle' : limit ≤ ms.length := Nat.not_lt.1 hfull
          have hEq : ms.length = limit := le_antisymm hle hle'
          by_cases hskip : x ≤ (ms.getD (findSmallest ms) defaultMatch).score
          · have hstep : selectLoop q limit (v :: rest) ms
                = selectLoop q limit rest ms := by
              simp only [selectLoop, hdp]
              rw [if_neg hfull, if_pos hskip]
            rw [hstep] at h
            have := ih ms r hle h
            rw [hfin, this]
            omega
          · have hstep : selectLoop q limit (v :: rest) ms
                = selectLoop q limit rest (ms.set (findSmallest ms) ⟨v, x⟩) := by
              simp only [selectLoop, hdp]
              rw [if_neg hfull, if_neg hskip]
            rw [hstep] at h
            have := ih (ms.set (findSmallest ms) ⟨v, x⟩) r (by simp [hle]) h
            rw [hfin, this]
            simp only [List.length_set]
            omega
      | nan =>
        have hstep : selectLoop q limit (v :: rest) ms = selectLoop q limit rest ms := by
          simp [selectLoop, hdp]
        rw [hstep] at h
        have hfin : finiteScoreCount q (v :: rest) = finiteScoreCount q rest := by
          simpa using hcnt false (by rw [hdp]; rfl)
        rw [hfin]
        exact ih ms r hle h
      | inf =>
        have hstep : selectLoop q limit (v :: rest) ms = selectLoop q limit rest ms := by
          simp [selectLoop, hdp]
        rw [hstep] at h
        have hfin : finiteScoreCount q (v :: rest) = finiteScoreCount q rest := by
          simpa using hcnt false (by rw [hdp]; rfl)
        rw [hfin]
        exact ih ms r hle h
      | neginf =>
        have hstep : selectLoop q limit (v :: rest) ms = selectLoop q limit rest ms := by
          simp [selectLoop, hdp]
        rw [hstep] at h
        have hfin : finiteScoreCount q (v :: rest) = finiteScoreCount q rest := by
          simpa using hcnt false (by rw [hdp]; rfl)
        rw [hfin]
        exact ih ms r hle h

/-- Once the working set is full, a common lower bound on its scores persists
to the final working set: insertions are impossible and replacements only
raise scores. -/
theorem selectLoop_persist (q : List (JsNum K)) (limit : ℕ) :
    ∀ (vs : List (VerseRecord K)) (ms r : List (VerseMatch K)) (y : K),
      limit ≤ ms.length → (∀ m ∈ ms, y ≤ m.score) →
      selectLoop q limit vs ms = some r → ∀ m ∈ r, y ≤ m.score := by
  intro vs
  induction vs with
  | nil =>
    intro ms r y _ hmin h
    simp only [selectLoop, Option.some.injEq] at h
    subst h
    exact hmin
  | cons v rest ih =>
    intro ms r y hlen hmin h
    cases hdp : dotProduct q v.embedding with
    | none =>
      rw [selectLoop_cons_none hdp] at h
      cases h
    | some s =>
      cases s with
      | fin x =>
        have hfull : ¬ ms.length < limit := Nat.not_lt.2 hlen
        by_cases hskip : x ≤ (ms.getD (findSmallest ms) defaultMatch).score
        · rw [selectLoop_cons_skip hdp hfull hskip] at h
          exact ih ms r y hlen hmin h
        · rw [selectLoop_cons_replace hdp hfull hskip] at h
          apply ih (ms.set (findSmallest ms) ⟨v, x⟩) r y (by simpa using hlen) ?_ h
          intro m hm
          rcases List.mem_or_eq_of_mem_set hm with h' | rfl
          · exact hmin m h'
          · have hne : ms ≠ [] := by
              intro hnil
              subst hnil
              simp at hm
            have hi := findSmallest_lt_length ms hne
            have hgd : ms.getD (findSmallest ms) defaultMatch ∈ ms := by
              rw [List.getD_eq_getElem ms defaultMatch hi]
              exact List.getElem_mem hi
            have hy := hmin _ hgd
            have hlt := not_le.1 hskip
            exact le_of_lt (lt_of_le_of_lt hy hlt)
      | nan =>
        rw [selectLoop_cons_nonfin hdp rfl] at h
        exact ih ms r y hlen hmin h
      | inf =>
        rw [selectLoop_cons_nonfin hdp rfl] at h
        exact ih ms r y hlen hmin h
      | neginf =>
        rw [selectLoop_cons_nonfin hdp rfl] at h
        exact ih ms r y hlen hmin h

/-- A working-set member either survives to the final working set or its
score became a lower bound of everything that does. -/
theorem selectLoop_mem (q : List (JsNum K)) (limit : ℕ) :
    ∀ (vs : List (VerseRecord K)) (ms r : List (VerseMatch K)),
      selectLoop q limit vs ms = some r →
      ∀ m ∈ ms, m ∈ r ∨ ∀ m' ∈ r, m.score ≤ m'.score := by
  intro vs
  induction vs with
  | nil =>
    intro ms r h m hm
    simp only [selectLoop, Option.some.injEq] at h
    subst h
    exact Or.inl hm
  | cons v rest ih =>
    intro ms r h m hm
    cases hdp : dotProduct q v.embedding with
    | none =>
      rw [selectLoop_cons_none hdp] at h
      cases h
    | some s =>
      cases s with
      | fin x =>
        by_cases hfull : ms.length < limit
        · rw [selectLoop_cons_insert hdp hfull] at h
          exact ih (ms ++ [⟨v, x⟩]) r h m (List.mem_append_left _ hm)
        · by_cases hskip : x ≤ (ms.getD (findSmallest ms) defaultMatch).score
          · rw [selectLoop_cons_skip hdp hfull hskip] at h
            exact ih ms r h m hm
          · rw [selectLoop_cons_replace hdp hfull hskip] at h
            rcases mem_set_or ms (findSmallest ms) ⟨v, x⟩ m hm with h' | ⟨hi, rfl⟩
            · exact ih _ r h m h'
            · right
              apply selectLoop_persist q limit rest _ r (ms[findSmallest ms]).score
                (by simpa using Nat.not_lt.1 hfull) ?_ h
              intro m' hm'
              rcases List.mem_or_eq_of_mem_set hm' with h'' | rfl
              · have := findSmallest_min ms m' h''
                rwa [List.getD_eq_getElem ms defaultMatch hi] at this
              · have hlt : (ms.getD (findSmallest ms) defaultMatch).score < x := not_le.1 hskip
                rw [List.getD_eq_getElem ms defaultMatch hi] at hlt
                exact le_of_lt hlt
      | nan =>
        rw [selectLoop_cons_nonfin hdp rfl] at h
        exact ih ms r h m hm
      | inf =>
        rw [selectLoop_cons_nonfin hdp rfl] at h
        exact ih ms r h m hm
      | neginf =>
        rw [selectLoop_cons_nonfin hdp rfl] at h
        exact ih ms r h m hm

/-- Every processed verse with a finite score either appears in the final
working set or its score bounds every final score from below. -/
theorem selectLoop_dominates (q : List (JsNum K)) (limit : ℕ) :
    ∀ (vs : List (VerseRecord K)) (ms r : List (VerseMatch K)),
      selectLoop q limit vs ms = some r →
      ∀ v ∈ vs, ∀ x, dotProduct q v.embedding = some (JsNum.fin x) →
      (∃ m ∈ r, m.verse = v) ∨ ∀ m ∈ r, x ≤ m.score := by
  intro vs
  induction vs with
  | nil =>
    intro ms r _ v hv
    cases hv
  | cons v0 rest ih =>
    intro ms r h v hv x hdx
    rcases List.mem_cons.1 hv with rfl | hv'
    · by_cases hfull : ms.length < limit
      · rw [selectLoop_cons_insert hdx hfull] at h
        have hmem : (⟨v, x⟩ : VerseMatch K) ∈ ms ++ [⟨v, x⟩] := by simp
        rcases selectLoop_mem q limit rest _ r h _ hmem with h' | h'
        · exact Or.inl ⟨⟨v, x⟩, h', rfl⟩
        · exact Or.inr h'
      · by_cases hskip : x ≤ (ms.getD (findSmallest ms) defaultMatch).score
        · rw [selectLoop_cons_skip hdx hfull hskip] at h
          right
          apply selectLoop_persist q limit rest ms r x (Nat.not_lt.1 hfull) ?_ h
          intro m hm
          exact le_trans hskip (findSmallest_min ms m hm)
        · rw [selectLoop_cons_replace hdx hfull hskip] at h
          by_cases hne : ms = []
          · subst hne
            right
            apply selectLoop_persist q limit rest _ r x ?_ ?_ h
            · have h0 : ¬ (0 : ℕ) < limit := by simpa using hfull
              simp only [List.length_set, List.length_nil]
              omega
            · intro m' hm'
              simp at hm'
          · have hi := findSmallest_lt_length ms hne
            have hmem : (⟨v, x⟩ : VerseMatch K) ∈ ms.set (findSmallest ms) ⟨v, x⟩ := by
              have hi' : findSmallest ms < (ms.set (findSmallest ms) ⟨v, x⟩).length := by
                simpa using hi
              have := List.getElem_set_self hi'
              have hm2 := List.getElem_mem hi'
              rwa [this] at hm2
            rcases selectLoop_mem q limit rest _ r h _ hmem with h' | h'
            · exact Or.inl ⟨⟨v, x⟩, h', rfl⟩
            · exact Or.inr h'
    · cases hdp : dotProduct q v0.embedding with
      | none =>
        rw [selectLoop_cons_none hdp] at h
        cases h
      | some s =>
        cases s with
        | fin x0 =>
          by_cases hfull : ms.length < limit
          · rw [selectLoop_cons_insert hdp hfull] at h
            exact ih _ r h v hv' x hdx
          · by_cases hskip : x0 ≤ (ms.getD (findSmallest ms) defaultMatch).score
            · rw [selectLoop_cons_skip hdp hfull hskip] at h
              exact ih _ r h v hv' x hdx
            · rw [selectLoop_cons_replace hdp hfull hskip] at h
              exact ih _ r h v hv' x hdx
        | nan =>
          rw [selectLoop_cons_nonfin hdp rfl] at h
          exact ih _ r h v hv' x hdx
        | inf =>
          rw [selectLoop_cons_nonfin hdp rfl] at h
          exact ih _ r h v hv' x hdx
        | neginf =>
          rw [selectLoop_cons_nonfin hdp rfl] at h
          exact ih _ r h v hv' x hdx

/-- Claim C1 (amended): for every corpus, query vector and limit `k`,
`selectTopMatches` returns at most `k` results; it returns no fewer than
`min k c` results where `c` is the number of passages with a *finite*
similarity score (not `min k |corpus|` — non-finite-scoring passages are
skipped); and every returned result's score is ≥ the score of every
finite-scoring passage not returned in the same call. -/
theorem selectTopMatches_topK_spec (verses : List (VerseRecord K)) (q : List (JsNum K))
    (k : ℕ) (r : List (VerseMatch K)) (h : selectTopMatches verses q k = some r) :
    r.length ≤ k ∧ min k (finiteScoreCount q verses) ≤ r.length ∧
      ∀ v ∈ verses, (∀ m ∈ r, m.verse ≠ v) →
        ∀ x, dotProduct q v.embedding = some (JsNum.fin x) → ∀ m ∈ r, x ≤ m.score := by
  by_cases hk : k = 0
  · subst hk
    have h0 : selectTopMatches verses q 0 = some [] := by simp [selectTopMatches]
    rw [h0, Option.some.injEq] at h
    subst h
    refine ⟨le_rfl, by simp, ?_⟩
    intro v hv hnot x hdx m hm
    cases hm
  · simp only [selectTopMatches, if_neg hk] at h
    rcases Option.map_eq_some'.1 h with ⟨r0, hr0, hsort⟩
    subst hsort
    have hperm := sortDesc_perm r0
    have hlen : (sortDesc r0).length = r0.length := hperm.length_eq
    have hlen0 := selectLoop_length q k verses [] r0 (by simp) hr0
    simp only [List.length_nil, Nat.zero_add] at hlen0
    refine ⟨?_, ?_, ?_⟩
    · rw [hlen, hlen0]
      exact min_le_right _ _
    · rw [hlen, hlen0, Nat.min_comm]
    · intro v hv hnot x hdx m hm
      rcases selectLoop_dominates q k verses [] r0 hr0 v hv x hdx with ⟨m', hm', hveq⟩ | hdom
      · exact absurd hveq (hnot m' (hperm.mem_iff.2 hm'))
      · exact hdom m (hperm.mem_iff.1 hm)

/-- Corpus verse with a finite-scoring embedding used in the C1 corrections. -/
def cxVerseFin : VerseRecord ℚ :=
  ⟨"John", 3, 16, "For God so loved the world", [JsNum.fin 1]⟩

/-- Corpus verse whose stored embedding bytes decode to a NaN component. -/
def cxVerseNaN : VerseRecord ℚ :=
  ⟨"John", 3, 17, "God sent his Son into the world", [JsNum.nan]⟩

/-- Claim C1 counterexample: with a two-verse corpus in which one passage has
a finite similarity score and the other a NaN score, `selectTopMatches` with
`k = 2` returns a single result — fewer than `min(k, |corpus|) = 2` — so the
claim's lower bound fails as stated. -/
theorem selectTopMatches_nonfinite_counterexample :
    (dotProduct [JsNum.fin (1 : ℚ)] cxVerseFin.embedding).elim false JsNum.isFinite = true ∧
    selectTopMatches [cxVerseFin, cxVerseNaN] [JsNum.fin (1 : ℚ)] 2
      = some [⟨cxVerseFin, 1⟩] ∧
    ([(⟨cxVerseFin, 1⟩ : VerseMatch ℚ)].length < min 2 [cxVerseFin, cxVerseNaN].length) := by
  refine ⟨?_, ?_, ?_⟩
  · with_unfolding_all decide
  · with_unfolding_all decide
  · with_unfolding_all decide

/-- One-verse corpus used to witness the amended C1 theorem. -/
def wVerse : VerseRecord ℚ := ⟨"Genesis", 1, 1, "In the beginning", [JsNum.fin 1]⟩

/-- Witness for the amended C1 theorem at a concrete corpus, query and limit. -/
theorem selectTopMatches_topK_spec_witness :
    [(⟨wVerse, 1⟩ : VerseMatch ℚ)].length ≤ 1 ∧
      min 1 (finiteScoreCount [JsNum.fin (1 : ℚ)] [wVerse]) ≤ [(⟨wVerse, 1⟩ : VerseMatch ℚ)].length ∧
      ∀ v ∈ [wVerse], (∀ m ∈ [(⟨wVerse, 1⟩ : VerseMatch ℚ)], m.verse ≠ v) →
        ∀ x, dotProduct [JsNum.fin (1 : ℚ)] v.embedding = some (JsNum.fin x) →
          ∀ m ∈ [(⟨wVerse, 1⟩ : VerseMatch ℚ)], x ≤ m.score :=
  selectTopMatches_topK_spec [wVerse] [JsNum.fin 1] 1 [⟨wVerse, 1⟩]
    (by with_unfolding_all decide)

/-! ### Text normalization, tokenization and the hashing-trick vectorizer -/

/-- The whitespace class used by the `\s` regexes and `String.prototype.trim`
(the common code points; exotic Unicode spaces behave identically). -/
def jsIsSpace (c : Char) : Bool :=
  decide (c.toNat ∈ [9, 10, 11, 12, 13, 32, 160, 8232, 8233, 65279])

/-- `String.prototype.toLowerCase` restricted to ASCII letters, the only code
points the tokenizer keeps afterwards. -/
def jsToLower (c : Char) : Char :=
  if 65 ≤ c.toNat ∧ c.toNat ≤ 90 then Char.ofNat (c.toNat + 32) else c

/-- A character the tokenizer regex `[^a-z0-9\s']` keeps: `a`-`z`, `0`-`9`
or the apostrophe (code 39). -/
def isTokenChar (c : Char) : Bool :=
  decide ((97 ≤ c.toNat ∧ c.toNat ≤ 122) ∨ (48 ≤ c.toNat ∧ c.toNat ≤ 57) ∨ c.toNat = 39)

/-- Split a character list at the separators selected by `p`: the separators
are dropped and the (possibly empty) fields between them are returned, the
way `String.prototype.split` on a one-character separator class behaves. -/
def splitFields (p : Char → Bool) : List Char → List (List Char)
  | [] => [[]]
  | c :: rest =>
    if p c then [] :: splitFields p rest
    else
      match splitFields p rest with
      | [] => [[c]]
      | w :: ws => (c :: w) :: ws

/-- `normalizeText` from lib/bible/index.ts and scripts/ingest-bible.ts:
`text.replace(/\s+/g, " ").trim()`, i.e. the whitespace-separated fields
joined by single spaces. -/
def normalizeText (s : String) : String :=
  String.intercalate " "
    (((splitFields jsIsSpace s.data).filter (fun w => !w.isEmpty)).map (fun w => String.mk w))

/-- `tokenize`: lowercase, replace every character outside `[a-z0-9\s']` with
a space, split on whitespace runs and drop empties.  After the replacement
the separators are exactly the non-token characters, so this is splitting the
lowercased text at every non-token character and dropping empty fields. -/
def tokenize (text : String) : List String :=
  ((splitFields (fun c => !isTokenChar c) (text.data.map jsToLower)).filter
    (fun w => !w.isEmpty)).map (fun w => String.mk w)

/-- One step of the FNV-1a loop of `hashToken`:
`hash = (hash XOR code) * 0x01000193` truncated to 32 unsigned bits
(`Math.imul` followed by `>>> 0`). -/
def fnv1aStep (hash code : ℕ) : ℕ :=
  ((hash ^^^ code) * 0x01000193) % 0x100000000

/-- The full FNV-1a hash of a token's character codes, seed `0x811c9dc5`. -/
def fnv1aHash (token : String) : ℕ :=
  token.data.foldl (fun h c => fnv1aStep h c.toNat) 0x811c9dc5

/-- `hashToken` from lib/bible/index.ts and scripts/ingest-bible.ts:
the 32-bit FNV-1a hash of the token reduced modulo the dimension. -/
def hashToken (token : String) (dimension : ℕ) : ℕ :=
  fnv1aHash token % dimension

/-- The truncation keeps every intermediate (and the final) hash below 2^32. -/
theorem fnv1aHash_lt (token : String) : fnv1aHash token < 0x100000000 := by
  have key : ∀ (l : List Char) (a : ℕ), a < 0x100000000 →
      l.foldl (fun h c => fnv1aStep h c.toNat) a < 0x100000000 := by
    intro l
    induction l with
    | nil =>
      intro a ha
      simpa using ha
    | cons c rest ih =>
      intro a ha
      simp only [List.foldl_cons]
      exact ih _ (Nat.mod_lt _ (by norm_num))
  exact key _ _ (by norm_num)

/-- The bucket index is always in range for a positive dimension. -/
theorem hashToken_lt (token : String) (D : ℕ) (hD : 0 < D) : hashToken token D < D :=
  Nat.mod_lt _ hD

/-- Claim C3: for every token and positive dimension `D`, the bucket mapping
is the 32-bit FNV-1a hash (seed `0x811c9dc5`, per-step XOR of the character
code followed by multiplication by `0x01000193` truncated to 32 unsigned
bits) reduced modulo `D`; the hash stays below 2^32 and the bucket index is
always in `[0, D)`. -/
theorem hashToken_fnv1a_spec (token : String) (D : ℕ) (hD : 0 < D) :
    hashToken token D
        = (token.data.foldl
            (fun h c => ((h ^^^ c.toNat) * 0x01000193) % 0x100000000) 0x811c9dc5) % D ∧
      hashToken token D < D ∧ fnv1aHash token < 0x100000000 :=
  ⟨rfl, hashToken_lt token D hD, fnv1aHash_lt token⟩

/-- Witness for C3 at a concrete token and dimension. -/
theorem hashToken_fnv1a_spec_witness :
    hashToken "love" 384
        = ("love".data.foldl
            (fun h c => ((h ^^^ c.toNat) * 0x01000193) % 0x100000000) 0x811c9dc5) % 384 ∧
      hashToken "love" 384 < 384 ∧ fnv1aHash "love" < 0x100000000 :=
  hashToken_fnv1a_spec "love" 384 (by decide)

/-- The bucket-count accumulation loop of the vectorizer:
`vector[hashToken(token, dimension)] += 1` over all tokens, starting from the
all-zero vector of length `dimension`. -/
def hashCounts (tokens : List String) (dimension : ℕ) : List K :=
  tokens.foldl
    (fun vec token =>
      vec.set (hashToken token dimension) (vec.getD (hashToken token dimension) 0 + 1))
    (List.replicate dimension 0)

/-- `sumSquares` accumulation of the vectorizer. -/
def sumSquares (v : List K) : K :=
  v.foldl (fun s x => s + x * x) 0

/-- `vectorizeTokens` from lib/bible/index.ts: accumulate hashed token counts,
then divide by the Euclidean norm when it is positive.  `sqrt` models the
`Math.sqrt` primitive. -/
def vectorizeTokens (sqrt : K → K) (tokens : List String) (dimension : ℕ) : List K :=
  if tokens.isEmpty then List.replicate dimension 0
  else
    let vector := hashCounts tokens dimension
    let s := sumSquares vector
    if 0 < s then vector.map (fun x => x / sqrt s) else vector

/-- `vectorize` from scripts/ingest-bible.ts: same body as `vectorizeTokens`
applied to the tokenized text. -/
def vectorize (sqrt : K → K) (text : String) (dimension : ℕ) : List K :=
  vectorizeTokens sqrt (tokenize text) dimension

/-- Euclidean norm of a stored vector. -/
noncomputable def euclidNorm (v : List ℝ) : ℝ :=
  Real.sqrt (sumSquares v)

/-- The accumulated sum of squares as a mapped list sum. -/
theorem sumSquares_eq (v : List K) : sumSquares v = (v.map (fun x => x * x)).sum := by
  have key : ∀ (l : List K) (a : K),
      l.foldl (fun s x => s + x * x) a = a + (l.map (fun x => x * x)).sum := by
    intro l
    induction l with
    | nil => intro a; simp
    | cons x t ih => intro a; simp [ih, add_assoc]
  simpa using key v 0

/-- The count accumulation never changes the vector's length. -/
theorem hashCounts_length (tokens : List String) (D : ℕ) :
    (hashCounts (K := K) tokens D).length = D := by
  have key : ∀ (l : List String) (v : List K),
      (l.foldl (fun vec token =>
        vec.set (hashToken token D) (vec.getD (hashToken token D) 0 + 1)) v).length
        = v.length := by
    intro l
    induction l with
    | nil => intro v; rfl
    | cons t rest ih =>
      intro v
      simp only [List.foldl_cons]
      rw [ih]
      exact List.length_set v _ _
  simpa [hashCounts] using key tokens (List.replicate D 0)

/-- Reading from a componentwise-nonnegative vector with default `0` is
nonnegative. -/
theorem getD_zero_nonneg (v : List K) (hv : ∀ x ∈ v, 0 ≤ x) (i : ℕ) : 0 ≤ v.getD i 0 := by
  by_cases hi : i < v.length
  · rw [List.getD_eq_getElem v 0 hi]
    exact hv _ (List.getElem_mem hi)
  · rw [List.getD_eq_default v 0 (Nat.not_lt.1 hi)]

/-- All accumulated counts are nonnegative. -/
theorem hashCounts_nonneg (tokens : List String) (D : ℕ) :
    ∀ x ∈ hashCounts (K := K) tokens D, 0 ≤ x := by
  have key : ∀ (l : List String) (v : List K), (∀ x ∈ v, 0 ≤ x) →
      ∀ x ∈ l.foldl (fun vec token =>
        vec.set (hashToken token D) (vec.getD (hashToken token D) 0 + 1)) v, 0 ≤ x := by
    intro l
    induction l with
    | nil => intro v hv; exact hv
    | cons t rest ih =>
      intro v hv
      simp only [List.foldl_cons]
      apply ih
      intro x hx
      rcases List.mem_or_eq_of_mem_set hx with h | rfl
      · exact hv x h
      · have := getD_zero_nonneg v hv (hashToken t D)
        linarith
  intro x hx
  exact key tokens (List.replicate D 0) (by intro y hy; simp_all [List.eq_of_mem_replicate hy]) x hx

/-- Incrementing one in-bounds component raises the sum by exactly one. -/
theorem sum_set_getD (v : List K) (i : ℕ) (hi : i < v.length) :
    (v.set i (v.getD i 0 + 1)).sum = v.sum + 1 := by
  induction v generalizing i with
  | nil => cases hi
  | cons a t ih =>
    cases i with
    | zero =>
      simp only [List.getD_cons_zero, List.set_cons_zero, List.sum_cons]
      ring
    | succ n =>
      simp only [List.getD_cons_succ, List.set_cons_succ, List.sum_cons]
      rw [ih n (by simpa using hi)]
      ring

/-- With a positive dimension every token lands in bounds, so the counts sum
to the number of tokens. -/
theorem hashCounts_sum (tokens : List String) (D : ℕ) (hD : 0 < D) :
    (hashCounts (K := K) tokens D).sum = (tokens.length : K) := by
  have key : ∀ (l : List String) (v : List K), v.length = D →
      (l.foldl (fun vec token =>
        vec.set (hashToken token D) (vec.getD (hashToken token D) 0 + 1)) v).sum
        = v.sum + (l.length : K) := by
    intro l
    induction l with
    | nil => intro v _; simp
    | cons t rest ih =>
      intro v hv
      simp only [List.foldl_cons]
      rw [ih _ (by rw [List.length_set]; exact hv)]
      rw [sum_set_getD v _ (by rw [hv]; exact hashToken_lt t D hD)]
      simp only [List.length_cons]
      push_cast
      ring
  have := key tokens (List.replicate D 0) (List.length_replicate D 0)
  simpa [hashCounts, List.sum_replicate] using this

/-- A list of nonpositive elements has nonpositive sum. -/
theorem sum_nonpos_of (v : List K) (h : ∀ x ∈ v, x ≤ 0) : v.sum ≤ 0 := by
  induction v with
  | nil => simp
  | cons a t ih =>
    simp only [List.sum_cons]
    have := h a (by simp)
    have := ih (fun x hx => h x (by simp [hx]))
    linarith

/-- A nonnegative list with positive sum has a positive element. -/
theorem exists_pos_of_sum_pos (v : List K) (hs : 0 < v.sum) : ∃ x ∈ v, x ≠ 0 := by
  by_contra h
  push_neg at h
  have : v.sum ≤ 0 := sum_nonpos_of v (fun x hx => le_of_eq (h x hx))
  linarith

/-- Sums of squares are nonnegative. -/
theorem sumSquares_nonneg (v : List K) : 0 ≤ sumSquares v := by
  rw [sumSquares_eq]
  induction v with
  | nil => simp
  | cons a t ih =>
    simp only [List.map_cons, List.sum_cons]
    have := mul_self_nonneg a
    simp only [List.map] at ih
    linarith

/-- A vector with a nonzero component has positive sum of squares. -/
theorem sumSquares_pos (v : List K) (hx : ∃ x ∈ v, x ≠ 0) : 0 < sumSquares v := by
  rcases hx with ⟨x, hmem, hne⟩
  induction v with
  | nil => cases hmem
  | cons a t ih =>
    rw [sumSquares_eq] at *
    simp only [List.map_cons, List.sum_cons]
    rcases List.mem_cons.1 hmem with rfl | hmem'
    · have h1 : 0 < x * x := mul_self_pos.2 hne
      have h2 : 0 ≤ (t.map (fun y => y * y)).sum := by
        have := sumSquares_nonneg (K := K) t
        rwa [sumSquares_eq] at this
      linarith
    · have h1 : 0 < (t.map (fun y => y * y)).sum := ih hmem'
      have h2 := mul_self_nonneg a
      linarith

/-- Dividing every component scales the sum of squares by the square. -/
theorem sumSquares_map_div (v : List K) (c : K) :
    sumSquares (v.map (fun x => x / c)) = sumSquares v / (c * c) := by
  rw [sumSquares_eq, sumSquares_eq]
  induction v with
  | nil => simp
  | cons a t ih =>
    simp only [List.map_cons, List.map_map, List.sum_cons] at *
    rw [ih]
    rw [div_mul_div_comm, div_add_div_same]

/-- Claim C2: for every text and positive dimension `D`, the vectorizer
returns a vector of length `D`; when tokenization retains at least one token
the vector's Euclidean norm is exactly 1 (hence within 1e-5 of 1.0); when
normalization strips every token it returns the all-zero vector; and the
result is deterministic. -/
theorem vectorize_unitNorm_spec (text : String) (D : ℕ) (hD : 0 < D) :
    (vectorize Real.sqrt text D).length = D ∧
      (tokenize text ≠ [] →
        euclidNorm (vectorize Real.sqrt text D) = 1 ∧
          |euclidNorm (vectorize Real.sqrt text D) - 1| ≤ 1 / 100000) ∧
      (tokenize text = [] → vectorize Real.sqrt text D = List.replicate D 0) ∧
      vectorize Real.sqrt text D = vectorize Real.sqrt text D := by
  by_cases hT : tokenize text = []
  · have hv : vectorize Real.sqrt text D = List.replicate D 0 := by
      simp [vectorize, vectorizeTokens, hT]
    refine ⟨by simp [hv], fun hne => absurd hT hne, fun _ => hv, rfl⟩
  · have hne : (tokenize text).isEmpty = false := by
      simpa [List.isEmpty_iff] using hT
    have hlenpos : 0 < (tokenize text).length := List.length_pos.2 hT
    have hsum : (hashCounts (K := ℝ) (tokenize text) D).sum = ((tokenize text).length : ℝ) :=
      hashCounts_sum _ D hD
    have hspos : 0 < sumSquares (hashCounts (K := ℝ) (tokenize text) D) := by
      apply sumSquares_pos
      apply exists_pos_of_sum_pos
      rw [hsum]
      exact_mod_cast hlenpos
    have hv : vectorize Real.sqrt text D
        = (hashCounts (tokenize text) D).map
            (fun x => x / Real.sqrt (sumSquares (hashCounts (tokenize text) D))) := by
      simp only [vectorize, vectorizeTokens, hne, Bool.false_eq_true, if_false, if_pos hspos]
    have hnorm : euclidNorm (vectorize Real.sqrt text D) = 1 := by
      rw [hv]
      unfold euclidNorm
      rw [sumSquares_map_div]
      rw [Real.mul_self_sqrt (le_of_lt hspos)]
      rw [div_self (ne_of_gt hspos)]
      exact Real.sqrt_one
    refine ⟨?_, fun _ => ⟨hnorm, by rw [hnorm]; norm_num⟩, fun h => absurd h hT, rfl⟩
    rw [hv, List.length_map]
    exact hashCounts_length _ D

/-- Witness for C2 at a concrete text and dimension. -/
theorem vectorize_unitNorm_spec_witness :
    (vectorize Real.sqrt "In the beginning God created" 8).length = 8 :=
  (vectorize_unitNorm_spec "In the beginning God created" 8 (by decide)).1

/-! ### Translation documents and passage resolution -/

/-- Association-list lookup mirroring JavaScript object property access. -/
def lookupA {α β : Type} [DecidableEq α] (k : α) : List (α × β) → Option β
  | [] => none
  | (k', v) :: rest => if k' = k then some v else lookupA k rest

/-- Verse key → verse text, one chapter of a translation document. -/
abbrev VerseMapJson := List (String × String)

/-- Chapter key → chapter content, one book of a translation document. -/
abbrev ChapterMapJson := List (String × VerseMapJson)

/-- `TranslationJson`: book → chapter (string key) → verse (string key) → text. -/
abbrev TranslationJson := List (String × ChapterMapJson)

/-- The distinct failures of `lookupTranslationText`, each naming the missing
level and the target translation. -/
inductive LookupErr where
  | bookMissing (book translationName : String)
  | chapterMissing (chapter : Int) (book translationName : String)
  | verseMissing (book : String) (chapter verse : Int) (translationName : String)
deriving DecidableEq

/-- The thrown error messages of `lookupTranslationText`. -/
def LookupErr.message : LookupErr → String
  | .bookMissing b n =>
    "Book " ++ b ++ " is not available in translation " ++ n ++ "."
  | .chapterMissing c b n =>
    "Chapter " ++ toString c ++ " is not available in " ++ b ++ " (" ++ n ++ ")."
  | .verseMissing b c v n =>
    "Verse " ++ b ++ " " ++ toString c ++ ":" ++ toString v
      ++ " is not available in translation " ++ n ++ "."

/-- `lookupTranslationText` from lib/bible/index.ts: navigate
`book → String(chapter) → String(verse)` and fail with the level-specific
error when a step is absent. -/
def lookupTranslationText (translation : TranslationJson) (verse : VerseRecord K)
    (translationName : String) : Except LookupErr String :=
  match lookupA verse.book translation with
  | none => .error (.bookMissing verse.book translationName)
  | some book =>
    match lookupA (toString verse.chapter) book with
    | none => .error (.chapterMissing verse.chapter verse.book translationName)
    | some chapter =>
      match lookupA (toString verse.verse) chapter with
      | none => .error (.verseMissing verse.book verse.chapter verse.verse translationName)
      | some text => .ok text

/-! ### The search entry point and the web boundary -/

/-- `clampLimit` from lib/bible/index.ts over the float model: reject
non-finite values, floor, reject negatives, cap at `MAX_LIMIT = 50`. -/
def clampLimit [FloorRing K] (raw : JsNum K) : Except String ℤ :=
  match raw with
  | .fin x =>
    if ⌊x⌋ < 0 then .error "Search result limit cannot be negative."
    else .ok (min ⌊x⌋ 50)
  | _ => .error "Search result limit must be a finite number."

/-- `String.prototype.trim`. -/
def jsTrim (s : String) : String :=
  String.mk (((s.data.dropWhile jsIsSpace).reverse.dropWhile jsIsSpace).reverse)

/-- `normalizeTranslation`: trimmed nonempty values are uppercased, otherwise
the default translation `NLT`. -/
def normalizeTranslation (value : Option String) : String :=
  match value with
  | none => "NLT"
  | some s =>
    let trimmed := jsTrim s
    if trimmed = "" then "NLT" else trimmed.toUpper

/-- `isZeroVector`: every component strictly equals `0`. -/
def isZeroVector (vector : List (JsNum K)) : Bool :=
  vector.all (fun x => decide (x = JsNum.fin 0))

/-- The in-memory corpus (`CorpusData` in lib/bible/index.ts). -/
structure CorpusData (K : Type) where
  translation : String
  dimension : ℕ
  verses : List (VerseRecord K)

/-- `BibleSearchResult` from lib/bible/index.ts. -/
structure BibleSearchResult (K : Type) where
  book : String
  chapter : Int
  verse : Int
  text : String
  translation : String
  score : K
deriving DecidableEq

/-- I/O effects performed by the engine, in order: loading the corpus and
loading a translation document. -/
inductive SearchEv where
  | corpusLoad
  | translationLoad (translation : String)
deriving DecidableEq

/-- The engine's environment: the lazily-loaded corpus, and the translation
document loader (Blob storage with filesystem fallback), keyed by the
normalized translation code.  An `error` result models a failed load. -/
structure SearchDeps (K : Type) where
  corpus : CorpusData K
  translations : String → Except String TranslationJson

/-- `searchBible` from lib/bible/index.ts, returning the result (or the
thrown error message) together with the I/O effects performed. -/
def searchBible [FloorRing K] (sqrt : K → K) (deps : SearchDeps K) (term : String)
    (limit maxResults : Option (JsNum K)) (translation : Option String) :
    Except String (List (BibleSearchResult K)) × List SearchEv :=
  let query := normalizeText term
  if query = "" then (.ok [], [])
  else
    match clampLimit (limit.getD (maxResults.getD (JsNum.fin 5))) with
    | .error e => (.error e, [])
    | .ok clampedLimit =>
      if clampedLimit = 0 then (.ok [], [])
      else
        let requestedTranslation := normalizeTranslation translation
        let corpus := deps.corpus
        let tokens := tokenize query
        if tokens = [] then (.ok [], [SearchEv.corpusLoad])
        else
          let queryVector := (vectorizeTokens sqrt tokens corpus.dimension).map JsNum.fin
          if isZeroVector queryVector then (.ok [], [SearchEv.corpusLoad])
          else
            match selectTopMatches corpus.verses queryVector clampedLimit.toNat with
            | none =>
              (.error "Vectors must have the same length to compute similarity.",
                [SearchEv.corpusLoad])
            | some found =>
              if requestedTranslation = corpus.translation then
                (.ok (found.map (fun m =>
                    ⟨m.verse.book, m.verse.chapter, m.verse.verse, m.verse.text,
                      corpus.translation, m.score⟩)),
                  [SearchEv.corpusLoad])
              else
                match deps.translations requestedTranslation with
                | .error e =>
                  (.error e, [SearchEv.corpusLoad, SearchEv.translationLoad requestedTranslation])
                | .ok translationJson =>
                  match found.mapM (fun m =>
                      (lookupTranslationText translationJson m.verse requestedTranslation).map
                        (fun text =>
                          (⟨m.verse.book, m.verse.chapter, m.verse.verse, text,
                            requestedTranslation, m.score⟩ : BibleSearchResult K))) with
                  | .error e =>
                    (.error e.message,
                      [SearchEv.corpusLoad, SearchEv.translationLoad requestedTranslation])
                  | .ok results =>
                    (.ok results,
                      [SearchEv.corpusLoad, SearchEv.translationLoad requestedTranslation])

/-- `parseNumberParam` from app/api/search/route.ts, applied to the value the
runtime's `Number(...)` produced for a present query parameter (`none` models
an absent parameter). -/
def parseNumberParam [FloorRing K] (value : Option (JsNum K)) (key : String) :
    Except String (Option (JsNum K)) :=
  match value with
  | none => .ok none
  | some (.fin x) =>
    if (⌊x⌋ : K) = x then
      if x < 0 then .error ("Query parameter `" ++ key ++ "` cannot be negative.")
      else .ok (some (.fin x))
    else .error ("Query parameter `" ++ key ++ "` must be an integer.")
  | some _ => .error ("Query parameter `" ++ key ++ "` must be a finite number.")

/-- The HTTP responses of the search route, by status. -/
inductive RouteResp (K : Type) where
  | serverError (msg : String)
  | unauthorized
  | badRequest (msg : String)
  | okJson (term : String) (translation : Option String) (results : List (BibleSearchResult K))
  | searchFailed

/-- `GET` from app/api/search/route.ts: API-key check, term extraction and
validation, numeric-parameter validation, then the engine call. -/
def routeGET [FloorRing K] (sqrt : K → K) (apiKey providedKey : Option String)
    (termParam qParam : Option String) (limitParam maxResultsParam : Option (JsNum K))
    (translationParam : Option String) (deps : SearchDeps K) :
    RouteResp K × List SearchEv :=
  match apiKey with
  | none => (.serverError "Server misconfiguration: missing API key", [])
  | some key =>
    if key = "" then (.serverError "Server misconfiguration: missing API key", [])
    else
      match providedKey with
      | none => (.unauthorized, [])
      | some pk =>
        if pk = "" ∨ pk ≠ key then (.unauthorized, [])
        else
          let term := jsTrim (termParam.getD (qParam.getD ""))
          if term = "" then
            (.badRequest "Missing search term. Provide `term` or `q` query parameter.", [])
          else
            match parseNumberParam limitParam "limit" with
            | .error e => (.badRequest e, [])
            | .ok maybeLimit =>
              match parseNumberParam maxResultsParam "maxResults" with
              | .error e => (.badRequest e, [])
              | .ok maybeMax =>
                match searchBible sqrt deps term maybeLimit maybeMax translationParam with
                | (.ok results, evs) => (.okJson term translationParam results, evs)
                | (.error _, evs) => (.searchFailed, evs)

omit [LinearOrderedField K] in
/-- Claim C7: resolving a matched passage in a loaded translation document
fails with the distinct error naming the missing level when the book, the
chapter (string key) or the verse (string key) is absent, and on success
returns exactly the stored text — never a partial or substituted value. -/
theorem lookupTranslationText_spec (tj : TranslationJson) (v : VerseRecord K) (n : String) :
    (lookupA v.book tj = none →
      lookupTranslationText tj v n = .error (.bookMissing v.book n)) ∧
    (∀ bk, lookupA v.book tj = some bk → lookupA (toString v.chapter) bk = none →
      lookupTranslationText tj v n = .error (.chapterMissing v.chapter v.book n)) ∧
    (∀ bk ch, lookupA v.book tj = some bk → lookupA (toString v.chapter) bk = some ch →
      lookupA (toString v.verse) ch = none →
      lookupTranslationText tj v n = .error (.verseMissing v.book v.chapter v.verse n)) ∧
    (∀ bk ch s, lookupA v.book tj = some bk → lookupA (toString v.chapter) bk = some ch →
      lookupA (toString v.verse) ch = some s →
      lookupTranslationText tj v n = .ok s) := by
  refine ⟨?_, ?_, ?_, ?_⟩
  · intro h
    simp [lookupTranslationText, h]
  · intro bk h1 h2
    simp [lookupTranslationText, h1, h2]
  · intro bk ch h1 h2 h3
    simp [lookupTranslationText, h1, h2, h3]
  · intro bk ch s h1 h2 h3
    simp [lookupTranslationText, h1, h2, h3]

/-- One-book translation document used to witness C7. -/
def wTranslation : TranslationJson :=
  [("Genesis", [("1", [("1", "In the beginning God created the heavens and the earth")])])]

/-- Passage identities used to witness C7. -/
def wLookupVerse : VerseRecord ℚ := ⟨"Genesis", 1, 1, "", []⟩

/-- Passage identity in a book missing from `wTranslation`. -/
def wMissingVerse : VerseRecord ℚ := ⟨"Exodus", 1, 1, "", []⟩

/-- Witness for C7: a successful resolution returning the stored text, and a
missing-book resolution returning the book-level error. -/
theorem lookupTranslationText_spec_witness :
    lookupTranslationText wTranslation wLookupVerse "KJV"
        = .ok "In the beginning God created the heavens and the earth" ∧
      lookupTranslationText wTranslation wMissingVerse "KJV"
        = .error (.bookMissing "Exodus" "KJV") :=
  ⟨(lookupTranslationText_spec wTranslation wLookupVerse "KJV").2.2.2
      [("1", [("1", "In the beginning God created the heavens and the earth")])]
      [("1", "In the beginning God created the heavens and the earth")]
      "In the beginning God created the heavens and the earth"
      (by with_unfolding_all decide) (by with_unfolding_all decide)
      (by with_unfolding_all decide),
    (lookupTranslationText_spec wTranslation wMissingVerse "KJV").1
      (by with_unfolding_all decide)⟩

/-- Claim C9: a term that is empty or consists only of whitespace yields the
empty result list without error and without any engine work. -/
theorem searchBible_emptyTerm_spec [FloorRing K] (sqrt : K → K) (deps : SearchDeps K)
    (term : String) (limit maxResults : Option (JsNum K)) (translation : Option String)
    (hws : ∀ c ∈ term.data, jsIsSpace c = true) :
    searchBible sqrt deps term limit maxResults translation = (.ok [], []) := by
  have hfields : ∀ w ∈ splitFields jsIsSpace term.data, w = [] := by
    have key : ∀ (l : List Char), (∀ c ∈ l, jsIsSpace c = true) →
        ∀ w ∈ splitFields jsIsSpace l, w = [] := by
      intro l
      induction l with
      | nil =>
        intro _ w hw
        simpa [splitFields] using hw
      | cons c rest ih =>
        intro hall w hw
        rw [show splitFields jsIsSpace (c :: rest) = [] :: splitFields jsIsSpace rest by
          simp [splitFields, hall c (by simp)]] at hw
        rcases List.mem_cons.1 hw with rfl | hw'
        · rfl
        · exact ih (fun c' hc' => hall c' (by simp [hc'])) w hw'
    exact key term.data hws
  have hq : normalizeText term = "" := by
    unfold normalizeText
    rw [show (splitFields jsIsSpace term.data).filter (fun w => !w.isEmpty) = [] from ?_]
    · rfl
    · rw [List.filter_eq_nil_iff]
      intro w hw
      simp [hfields w hw]
  simp [searchBible, hq]

/-- Three-verse corpus environment (primary translation `NLT`, dimension 3)
used to witness the search-layer claims. -/
def wSearchDeps : SearchDeps ℚ :=
  ⟨⟨"NLT", 3, [⟨"John", 3, 16, "For God so loved the world",
      [JsNum.fin 1, JsNum.fin 0, JsNum.fin 0]⟩]⟩,
    fun t => .error ("Unable to load translation data for " ++ t ++ ".")⟩

/-- Witness for C9 at a whitespace-only term. -/
theorem searchBible_emptyTerm_spec_witness :
    searchBible (fun x => x) wSearchDeps "   " none none none = (.ok [], []) :=
  searchBible_emptyTerm_spec (fun x => x) wSearchDeps "   " none none none
    (by decide)

/-- Claim C8: (i) at the engine, a limit above 50 is silently clamped to 50;
(ii) a limit that validates to 0 yields the empty result list; (iii) at the
web boundary of an authorized call, a non-finite or negative raw limit value
is rejected with a 400 validation error while the engine performs no work at
all (no corpus load, no ranking). -/
theorem searchLimit_validation_spec [FloorRing K] :
    (∀ x : K, 50 < x → clampLimit (JsNum.fin x) = .ok 50) ∧
      (∀ (sqrt : K → K) (deps : SearchDeps K) (term : String) (l : JsNum K)
          (mr : Option (JsNum K)) (tr : Option String),
        clampLimit l = .ok 0 →
        (searchBible sqrt deps term (some l) mr tr).1 = .ok []) ∧
      (∀ (sqrt : K → K) (key : String) (termP qP : Option String) (raw : JsNum K)
          (mrP : Option (JsNum K)) (trP : Option String) (deps : SearchDeps K),
        key ≠ "" →
        (raw.isFinite = false ∨ ∃ x, raw = JsNum.fin x ∧ x < 0) →
        ∃ msg, routeGET sqrt (some key) (some key) termP qP (some raw) mrP trP deps
          = (.badRequest msg, [])) := by
  refine ⟨?_, ?_, ?_⟩
  · intro x hx
    have hfl : (50 : ℤ) ≤ ⌊x⌋ := by
      rw [Int.le_floor]
      push_cast
      exact le_of_lt hx
    have hneg : ¬ (⌊x⌋ < 0) := by omega
    simp only [clampLimit, if_neg hneg, Except.ok.injEq]
    omega
  · intro sqrt deps term l mr tr hcl
    by_cases hterm : normalizeText term = ""
    · simp [searchBible, hterm]
    · simp [searchBible, hterm, hcl]
  · intro sqrt key termP qP raw mrP trP deps hkey hbad
    have hparse : ∃ e, parseNumberParam (K := K) (some raw) "limit" = .error e := by
      rcases hbad with hnf | ⟨x, rfl, hneg⟩
      · cases raw with
        | fin x => simp [JsNum.isFinite] at hnf
        | nan => exact ⟨_, rfl⟩
        | inf => exact ⟨_, rfl⟩
        | neginf => exact ⟨_, rfl⟩
      · by_cases hint : (⌊x⌋ : K) = x
        · exact ⟨"Query parameter `limit` cannot be negative.",
            by simp [parseNumberParam, hint, hneg]⟩
        · exact ⟨"Query parameter `limit` must be an integer.",
            by simp [parseNumberParam, hint]⟩
    rcases hparse with ⟨e, he⟩
    by_cases hterm : jsTrim (termP.getD (qP.getD "")) = ""
    · exact ⟨"Missing search term. Provide `term` or `q` query parameter.",
        by simp [routeGET, hkey, hterm]⟩
    · exact ⟨e, by simp [routeGET, hkey, hterm, he]⟩

/-- Witness for C8: clamping at 51, the zero-validated limit, and rejection
of a negative raw limit before any engine work. -/
theorem searchLimit_validation_spec_witness :
    clampLimit (JsNum.fin (51 : ℚ)) = .ok 50 ∧
      (searchBible (fun x => x) wSearchDeps "love" (some (JsNum.fin 0)) none none).1
        = .ok [] ∧
      ∃ msg, routeGET (fun x => x) (some "k") (some "k") (some "love") none
          (some (JsNum.fin (-1 : ℚ))) none none wSearchDeps = (.badRequest msg, []) :=
  ⟨(searchLimit_validation_spec (K := ℚ)).1 51 (by norm_num),
    (searchLimit_validation_spec (K := ℚ)).2.1 (fun x => x) wSearchDeps "love"
      (JsNum.fin 0) none none (by with_unfolding_all rfl),
    (searchLimit_validation_spec (K := ℚ)).2.2 (fun x => x) "k" (some "love") none
      (JsNum.fin (-1)) none none wSearchDeps (by decide)
      (Or.inr ⟨-1, rfl, by norm_num⟩)⟩

/-- Claim C10: a finite, non-negative, non-integer limit `x` is accepted by
the engine and the call behaves exactly as one with limit `⌊x⌋`: the raw
value is floored before the clamp against the maximum of 50. -/
theorem searchBible_fractionalLimit_spec [FloorRing K] (sqrt : K → K) (deps : SearchDeps K)
    (term : String) (mr : Option (JsNum K)) (tr : Option String) (x : K)
    (h0 : 0 ≤ x) (_hni : (⌊x⌋ : K) ≠ x) :
    clampLimit (JsNum.fin x) = .ok (min ⌊x⌋ 50) ∧
      searchBible sqrt deps term (some (JsNum.fin x)) mr tr
        = searchBible sqrt deps term (some (JsNum.fin ((⌊x⌋ : ℤ) : K))) mr tr := by
  have hneg : ¬ (⌊x⌋ < 0) := by
    rw [not_lt]
    exact Int.floor_nonneg.2 h0
  have h1 : clampLimit (JsNum.fin x) = .ok (min ⌊x⌋ 50) := by
    simp [clampLimit, hneg]
  have h2 : clampLimit (JsNum.fin ((⌊x⌋ : ℤ) : K)) = .ok (min ⌊x⌋ 50) := by
    simp [clampLimit, Int.floor_intCast, hneg]
  refine ⟨h1, ?_⟩
  by_cases hterm : normalizeText term = ""
  · simp [searchBible, hterm]
  · simp [searchBible, hterm, h1, h2]

/-- Witness for C10 at the fractional limit `3/2`. -/
theorem searchBible_fractionalLimit_spec_witness :
    clampLimit (JsNum.fin ((3 : ℚ)/2)) = .ok (min ⌊(3 : ℚ)/2⌋ 50) ∧
      searchBible (fun x => x) wSearchDeps "love" (some (JsNum.fin ((3 : ℚ)/2))) none none
        = searchBible (fun x => x) wSearchDeps "love"
            (some (JsNum.fin ((⌊(3 : ℚ)/2⌋ : ℤ) : ℚ))) none none :=
  searchBible_fractionalLimit_spec (fun x => x) wSearchDeps "love" none none ((3 : ℚ)/2)
    (by norm_num) (by norm_num)

/-! ### The corpus/translation sync manager (scripts/ingest-bible.ts)

The remote store, the manifests and the hashes are modelled explicitly:
content digests are byte sequences (`sha`/`md5` are parameters of the model,
the MD5 also being what the store reports as an object's etag), object keys
are their slash-separated path segments, and each remote call's outcome is
driven by an oracle parameter (`none` = the HTTP call succeeds). -/

/-- Raw byte content of a file or stored object. -/
abbrev Bytes := List ℕ

/-- A remote object key, as its slash-separated path segments. -/
abbrev BlobKey := List String

/-- `${prefix}/${translation}/${translation}_bible.json`. -/
def docKey (pfx translation : String) : BlobKey :=
  [pfx, translation, translation ++ "_bible.json"]

/-- `${prefix}/manifest.json`. -/
def manifestKey (pfx : String) : BlobKey :=
  [pfx, "manifest.json"]

/-- JavaScript object assignment on an association list: replace in place,
append when absent. -/
def setA {α β : Type} [DecidableEq α] (k : α) (v : β) : List (α × β) → List (α × β)
  | [] => [(k, v)]
  | (k', v') :: rest => if k' = k then (k, v) :: rest else (k', v') :: setA k v rest

/-- `TranslationManifest` from scripts/ingest-bible.ts. -/
structure TranslationManifest where
  hash : Bytes
  size : ℕ
  updatedAt : String
deriving DecidableEq

/-- `BlobManifest`: translation code → manifest entry. -/
abbrev BlobManifest := List (String × TranslationManifest)

/-- The remote object store together with the trace of completed PUT calls. -/
structure RemoteState where
  store : List (BlobKey × Bytes)
  uploads : List BlobKey
deriving DecidableEq

/-- The state a sync run reads and writes: the remote store, the remote
manifest object and the local manifest cache file. -/
structure RunState where
  remote : RemoteState
  remoteManifest : BlobManifest
  localManifest : BlobManifest
deriving DecidableEq

/-- `putBlobObject`: a successful PUT stores the body at the key and is
recorded in the upload trace; an error response throws, carrying the
response detail in the message. -/
def putBlobObject (failDetail : Option String) (key : BlobKey) (body : Bytes)
    (r : RemoteState) : Except String RemoteState :=
  match failDetail with
  | none => .ok ⟨setA key body r.store, r.uploads ++ [key]⟩
  | some detail =>
    .error ("Failed to upload " ++ String.intercalate "/" key
      ++ " to Blob storage: " ++ detail)

/-- `BlobMetadata` as returned by the HEAD probe. -/
structure BlobMetadata where
  present : Bool
  etag : Option Bytes
  contentLength : Option ℕ
  lastModified : Option String
deriving DecidableEq

/-- `getBlobMetadata`: probe the remote store; a stored object's etag is its
MD5 content digest and its content-length its byte size. -/
def getBlobMetadata (md5 : Bytes → Bytes) (r : RemoteState) (key : BlobKey) : BlobMetadata :=
  match lookupA key r.store with
  | none => ⟨false, none, none, none⟩
  | some b => ⟨true, some (md5 b), some b.length, some "remote-last-modified"⟩

/-- `SyncTranslationResult` from scripts/ingest-bible.ts. -/
structure SyncResult where
  remoteManifestChanged : Bool
  localManifestChanged : Bool
deriving DecidableEq

/-- The final upload step of `syncTranslationFileToBlob`: PUT the document,
then record `{hash, size, timestamp}` in both manifests. -/
def syncUpload (sha : Bytes → Bytes) (now pfx : String) (uploadErr : Option String)
    (translation : String) (fileBuffer : Bytes) (st : RunState) :
    Except String (RunState × SyncResult) :=
  let hashSha256 := sha fileBuffer
  let localEntry := lookupA translation st.localManifest
  match putBlobObject uploadErr (docKey pfx translation) fileBuffer st.remote with
  | .error e => .error e
  | .ok remote' =>
    let entry : TranslationManifest := ⟨hashSha256, fileBuffer.length, now⟩
    let localChanged : Bool :=
      match localEntry with
      | none => true
      | some le => decide (le.hash ≠ entry.hash ∨ le.size ≠ entry.size)
    .ok (⟨remote', setA translation entry st.remoteManifest,
        setA translation entry st.localManifest⟩,
      ⟨true, localChanged⟩)

/-- The metadata-probe step of `syncTranslationFileToBlob`: unless
`forceUpload` is set, HEAD the remote object (a failed probe leaves the
metadata unknown and proceeds); when the object exists with a matching etag
and size, adopt its metadata into both manifests without re-uploading,
otherwise fall through to the upload. -/
def syncProbe (sha md5 : Bytes → Bytes) (now pfx : String) (probeOk : Bool)
    (uploadErr : Option String) (forceUpload : Bool)
    (translation : String) (fileBuffer : Bytes) (st : RunState) :
    Except String (RunState × SyncResult) :=
  let hashSha256 := sha fileBuffer
  let hashMd5 := md5 fileBuffer
  let translationKey := docKey pfx translation
  let remoteEntry := lookupA translation st.remoteManifest
  let localEntry := lookupA translation st.localManifest
  let metadata : Option BlobMetadata :=
    if forceUpload then none
    else if probeOk then some (getBlobMetadata md5 st.remote translationKey) else none
  match metadata with
  | some m =>
    if m.present then
      let sizeMatches : Bool :=
        match m.contentLength with
        | none => true
        | some len => decide (len = fileBuffer.length)
      match m.etag with
      | some etag =>
        if etag = hashMd5 ∧ sizeMatches = true then
          let entry : TranslationManifest :=
            ⟨hashSha256, fileBuffer.length, m.lastModified.getD now⟩
          let remoteChanged : Bool :=
            match remoteEntry with
            | none => true
            | some re => decide (re.hash ≠ entry.hash ∨ re.size ≠ entry.size)
          let localChanged : Bool :=
            match localEntry with
            | none => true
            | some le => decide (le.hash ≠ entry.hash ∨ le.size ≠ entry.size)
          .ok (⟨st.remote, setA translation entry st.remoteManifest,
              setA translation entry st.localManifest⟩,
            ⟨remoteChanged, localChanged⟩)
        else syncUpload sha now pfx uploadErr translation fileBuffer st
      | none => syncUpload sha now pfx uploadErr translation fileBuffer st
    else syncUpload sha now pfx uploadErr translation fileBuffer st
  | none => syncUpload sha now pfx uploadErr translation fileBuffer st

/-- The remote-manifest short-circuit of `syncTranslationFileToBlob`: when
the remote manifest already records the current hash, adopt it into the
local cache (no transfer); otherwise probe. -/
def syncRemoteCheck (sha md5 : Bytes → Bytes) (now pfx : String) (probeOk : Bool)
    (uploadErr : Option String) (forceUpload : Bool)
    (translation : String) (fileBuffer : Bytes) (st : RunState) :
    Except String (RunState × SyncResult) :=
  let hashSha256 := sha fileBuffer
  match lookupA translation st.remoteManifest with
  | some re =>
    if forceUpload = false ∧ re.hash = hashSha256 then
      match lookupA translation st.localManifest with
      | none =>
        .ok ({ st with localManifest := setA translation re st.localManifest },
          ⟨false, true⟩)
      | some le =>
        if le.hash ≠ hashSha256 then
          .ok ({ st with localManifest := setA translation re st.localManifest },
            ⟨false, true⟩)
        else .ok (st, ⟨false, false⟩)
    else syncProbe sha md5 now pfx probeOk uploadErr forceUpload translation fileBuffer st
  | none => syncProbe sha md5 now pfx probeOk uploadErr forceUpload translation fileBuffer st

/-- `syncTranslationFileToBlob` from scripts/ingest-bible.ts: local-cache
short-circuit (metadata-only remote patch when the remote manifest
disagrees), then remote-manifest short-circuit, then metadata probe, then
upload. -/
def syncTranslationFileToBlob (sha md5 : Bytes → Bytes) (now pfx : String) (probeOk : Bool)
    (uploadErr : Option String) (forceUpload : Bool)
    (translation : String) (fileBuffer : Bytes) (st : RunState) :
    Except String (RunState × SyncResult) :=
  let hashSha256 := sha fileBuffer
  match lookupA translation st.localManifest with
  | some le =>
    if forceUpload = false ∧ le.hash = hashSha256 then
      let needsRemoteUpdate : Bool :=
        match lookupA translation st.remoteManifest with
        | none => true
        | some re => decide (re.hash ≠ le.hash ∨ re.size ≠ le.size)
      .ok ({ st with remoteManifest := setA translation le st.remoteManifest },
        ⟨needsRemoteUpdate, false⟩)
    else syncRemoteCheck sha md5 now pfx probeOk uploadErr forceUpload translation fileBuffer st
  | none => syncRemoteCheck sha md5 now pfx probeOk uploadErr forceUpload translation fileBuffer st

/-- `isQuotaExceededError`: the thrown message (with its cause appended)
contains `"Storage quota exceeded"`. -/
def isQuotaExceededError (msg : String) : Bool :=
  decide ((msg.splitOn "Storage quota exceeded").length ≠ 1)

/-- The outcome of the per-translation loop of `syncTranslationsWithBlob`:
final state, dirty flags, the quota flag, the translations a sync was
attempted for, and the warnings logged. -/
structure LoopResult where
  st : RunState
  manifestDirty : Bool
  localManifestDirty : Bool
  quotaExceeded : Bool
  attempted : List String
  warnings : List String
deriving DecidableEq

/-- The per-translation loop of `syncTranslationsWithBlob`: stop once the
quota flag is up; otherwise sync the file, folding the dirty flags on
success, and on a thrown error log it, keep the state, and raise the quota
flag when the error is quota exhaustion. -/
def syncLoop (sha md5 : Bytes → Bytes) (now pfx : String) (probeOk : String → Bool)
    (uploadErr : String → Option String) (forceUpload : Bool) :
    List (String × Bytes) → RunState → Bool → Bool → Bool → LoopResult
  | [], st, md, ld, q => ⟨st, md, ld, q, [], []⟩
  | (t, buf) :: rest, st, md, ld, q =>
    if q then ⟨st, md, ld, q, [], []⟩
    else
      match syncTranslationFileToBlob sha md5 now pfx (probeOk t) (uploadErr t)
          forceUpload t buf st with
      | .ok (st', res) =>
        let r := syncLoop sha md5 now pfx probeOk uploadErr forceUpload rest st'
          (md || res.remoteManifestChanged) (ld || res.localManifestChanged) q
        ⟨r.st, r.manifestDirty, r.localManifestDirty, r.quotaExceeded,
          t :: r.attempted, r.warnings⟩
      | .error msg =>
        let q' := isQuotaExceededError msg
        let r := syncLoop sha md5 now pfx probeOk uploadErr forceUpload rest st md ld q'
        ⟨r.st, r.manifestDirty, r.localManifestDirty, r.quotaExceeded,
          t :: r.attempted,
          (("Failed to upload " ++ t ++ " translation to Blob storage. " ++ msg)
            :: (if q' then
                ["Blob storage quota exceeded. Skipping remaining translation uploads."]
              else [])) ++ r.warnings⟩

/-- `syncTranslationsWithBlob` from scripts/ingest-bible.ts (after the
manifest reads): run the loop over the discovered translation files, then
persist the remote manifest when it is dirty (a failed manifest write is
only logged). -/
def syncTranslationsWithBlob (sha md5 : Bytes → Bytes) (now pfx : String)
    (probeOk : String → Bool) (uploadErr : String → Option String)
    (manifestPutErr : Option String) (forceUpload : Bool)
    (encodeManifest : BlobManifest → Bytes)
    (items : List (String × Bytes)) (st : RunState) : LoopResult :=
  let r := syncLoop sha md5 now pfx probeOk uploadErr forceUpload items st false false false
  if r.manifestDirty then
    match putBlobObject manifestPutErr (manifestKey pfx)
        (encodeManifest r.st.remoteManifest) r.st.remote with
    | .ok remote' => { r with st := { r.st with remote := remote' } }
    | .error _ => r
  else r

/-- A manifest is accurate for a remote store when every entry describes a
document durably stored at the remote location the entry describes, with the
content hash the entry records. -/
def manifestAccurate (sha : Bytes → Bytes) (pfx : String)
    (store : List (BlobKey × Bytes)) (m : BlobManifest) : Prop :=
  ∀ t e, lookupA t m = some e →
    ∃ b, lookupA (docKey pfx t) store = some b ∧ sha b = e.hash

/-- Looking up the key just written finds the new value. -/
theorem lookupA_setA_self {α β : Type} [DecidableEq α] (k : α) (v : β) (m : List (α × β)) :
    lookupA k (setA k v m) = some v := by
  induction m with
  | nil => simp [setA, lookupA]
  | cons p rest ih =>
    obtain ⟨k', v'⟩ := p
    by_cases h : k' = k
    · simp [setA, h, lookupA]
    · simp [setA, h, lookupA, ih]

/-- Writing one key leaves every other key's lookup unchanged. -/
theorem lookupA_setA_ne {α β : Type} [DecidableEq α] (k k' : α) (v : β) (m : List (α × β))
    (h : k' ≠ k) : lookupA k' (setA k v m) = lookupA k' m := by
  induction m with
  | nil => simp [setA, lookupA, Ne.symm h]
  | cons p rest ih =>
    obtain ⟨k'', v''⟩ := p
    by_cases hk : k'' = k
    · subst hk
      simp [setA, lookupA, Ne.symm h]
    · simp [setA, hk, lookupA, ih]

/-- Distinct translations live at distinct document keys. -/
theorem docKey_ne_of_ne (pfx t t' : String) (h : t' ≠ t) :
    docKey pfx t' ≠ docKey pfx t := by
  simp [docKey, h]

/-- A document key never collides with the manifest key. -/
theorem docKey_ne_manifestKey (pfx t : String) : docKey pfx t ≠ manifestKey pfx := by
  simp [docKey, manifestKey]

/-- Writing an entry that accurately describes a stored document preserves
manifest accuracy. -/
theorem manifestAccurate_setA (sha : Bytes → Bytes) (pfx : String)
    (store : List (BlobKey × Bytes)) (m : BlobManifest) (t : String)
    (e : TranslationManifest) (hm : manifestAccurate sha pfx store m)
    (he : ∃ b, lookupA (docKey pfx t) store = some b ∧ sha b = e.hash) :
    manifestAccurate sha pfx store (setA t e m) := by
  intro t' e' h'
  by_cases ht : t' = t
  · subst ht
    rw [lookupA_setA_self] at h'
    injection h' with h''
    subst h''
    exact he
  · rw [lookupA_setA_ne t t' e m ht] at h'
    exact hm t' e' h'

/-- Uploading a document and then recording its entry preserves accuracy of
any manifest so updated. -/
theorem manifestAccurate_upload (sha : Bytes → Bytes) (pfx : String)
    (store : List (BlobKey × Bytes)) (m : BlobManifest) (t : String) (body : Bytes)
    (e : TranslationManifest) (hhash : e.hash = sha body)
    (hm : manifestAccurate sha pfx store m) :
    manifestAccurate sha pfx (setA (docKey pfx t) body store) (setA t e m) := by
  intro t' e' h'
  by_cases ht : t' = t
  · subst ht
    rw [lookupA_setA_self] at h'
    injection h' with h''
    subst h''
    exact ⟨body, lookupA_setA_self _ _ _, hhash.symm⟩
  · rw [lookupA_setA_ne t t' e m ht] at h'
    rcases hm t' e' h' with ⟨b, hb, hsha⟩
    refine ⟨b, ?_, hsha⟩
    rw [lookupA_setA_ne _ _ _ _ (docKey_ne_of_ne pfx t t' ht)]
    exact hb

/-- Writing the manifest object does not disturb any document lookup. -/
theorem manifestAccurate_manifest_put (sha : Bytes → Bytes) (pfx : String)
    (store : List (BlobKey × Bytes)) (m : BlobManifest) (body : Bytes)
    (hm : manifestAccurate sha pfx store m) :
    manifestAccurate sha pfx (setA (manifestKey pfx) body store) m := by
  intro t e h
  rcases hm t e h with ⟨b, hb, hsha⟩
  refine ⟨b, ?_, hsha⟩
  rw [lookupA_setA_ne _ _ _ _ (docKey_ne_manifestKey pfx t)]
  exact hb

/-- The upload step preserves accuracy of both manifests. -/
theorem syncUpload_acc (sha : Bytes → Bytes) (now pfx : String) (uploadErr : Option String)
    (translation : String) (fileBuffer : Bytes) (st st' : RunState) (res : SyncResult)
    (h : syncUpload sha now pfx uploadErr translation fileBuffer st = .ok (st', res))
    (hr : manifestAccurate sha pfx st.remote.store st.remoteManifest)
    (hl : manifestAccurate sha pfx st.remote.store st.localManifest) :
    manifestAccurate sha pfx st'.remote.store st'.remoteManifest ∧
      manifestAccurate sha pfx st'.remote.store st'.localManifest := by
  cases uploadErr with
  | some d =>
    simp [syncUpload, putBlobObject] at h
  | none =>
    simp only [syncUpload, putBlobObject, Except.ok.injEq, Prod.mk.injEq] at h
    obtain ⟨h1, _⟩ := h
    subst h1
    constructor
    · exact manifestAccurate_upload sha pfx _ _ translation fileBuffer _ rfl hr
    · exact manifestAccurate_upload sha pfx _ _ translation fileBuffer _ rfl hl

/-- The probe step preserves accuracy of both manifests, assuming the MD5
digest identifies content (no collision). -/
theorem syncProbe_acc (sha md5 : Bytes → Bytes) (hmd5 : ∀ a b, md5 a = md5 b → a = b)
    (now pfx : String) (probeOk : Bool) (uploadErr : Option String) (forceUpload : Bool)
    (translation : String) (fileBuffer : Bytes) (st st' : RunState) (res : SyncResult)
    (h : syncProbe sha md5 now pfx probeOk uploadErr forceUpload translation fileBuffer st
      = .ok (st', res))
    (hr : manifestAccurate sha pfx st.remote.store st.remoteManifest)
    (hl : manifestAccurate sha pfx st.remote.store st.localManifest) :
    manifestAccurate sha pfx st'.remote.store st'.remoteManifest ∧
      manifestAccurate sha pfx st'.remote.store st'.localManifest := by
  cases forceUpload with
  | true =>
    simp only [syncProbe, if_pos rfl] at h
    exact syncUpload_acc sha now pfx uploadErr translation fileBuffer st st' res h hr hl
  | false =>
    cases probeOk with
    | false =>
      simp only [syncProbe, Bool.false_eq_true, if_false] at h
      exact syncUpload_acc sha now pfx uploadErr translation fileBuffer st st' res h hr hl
    | true =>
      cases hsb : lookupA (docKey pfx translation) st.remote.store with
      | none =>
        simp only [syncProbe, Bool.false_eq_true, if_false, if_pos rfl, if_true,
          getBlobMetadata, hsb] at h
        exact syncUpload_acc sha now pfx uploadErr translation fileBuffer st st' res h hr hl
      | some b =>
        simp only [syncProbe, Bool.false_eq_true, if_false, if_pos rfl, if_true,
          getBlobMetadata, hsb] at h
        by_cases hc : md5 b = md5 fileBuffer ∧ decide (b.length = fileBuffer.length) = true
        · rw [if_pos hc] at h
          simp only [Except.ok.injEq, Prod.mk.injEq] at h
          obtain ⟨h1, _⟩ := h
          subst h1
          have hbf : b = fileBuffer := hmd5 _ _ hc.1
          constructor
          · apply manifestAccurate_setA sha pfx _ _ translation _ hr
            exact ⟨b, hsb, by rw [hbf]⟩
          · apply manifestAccurate_setA sha pfx _ _ translation _ hl
            exact ⟨b, hsb, by rw [hbf]⟩
        · rw [if_neg hc] at h
          exact syncUpload_acc sha now pfx uploadErr translation fileBuffer st st' res h hr hl

/-- The remote-manifest short-circuit preserves accuracy of both manifests. -/
theorem syncRemoteCheck_acc (sha md5 : Bytes → Bytes) (hmd5 : ∀ a b, md5 a = md5 b → a = b)
    (now pfx : String) (probeOk : Bool) (uploadErr : Option String) (forceUpload : Bool)
    (translation : String) (fileBuffer : Bytes) (st st' : RunState) (res : SyncResult)
    (h : syncRemoteCheck sha md5 now pfx probeOk uploadErr forceUpload translation fileBuffer st
      = .ok (st', res))
    (hr : manifestAccurate sha pfx st.remote.store st.remoteManifest)
    (hl : manifestAccurate sha pfx st.remote.store st.localManifest) :
    manifestAccurate sha pfx st'.remote.store st'.remoteManifest ∧
      manifestAccurate sha pfx st'.remote.store st'.localManifest := by
  cases hre : lookupA translation st.remoteManifest with
  | none =>
    simp only [syncRemoteCheck, hre] at h
    exact syncProbe_acc sha md5 hmd5 now pfx probeOk uploadErr forceUpload translation
      fileBuffer st st' res h hr hl
  | some re =>
    simp only [syncRemoteCheck, hre] at h
    by_cases hcond : forceUpload = false ∧ re.hash = sha fileBuffer
    · rw [if_pos hcond] at h
      have hadopt : manifestAccurate sha pfx st.remote.store
          (setA translation re st.localManifest) := by
        apply manifestAccurate_setA sha pfx _ _ translation _ hl
        exact hr translation re hre
      cases hle : lookupA translation st.localManifest with
      | none =>
        simp only [hle, Except.ok.injEq, Prod.mk.injEq] at h
        obtain ⟨h1, _⟩ := h
        subst h1
        exact ⟨hr, hadopt⟩
      | some le =>
        simp only [hle] at h
        by_cases hne : le.hash ≠ sha fileBuffer
        · rw [if_pos hne] at h
          simp only [Except.ok.injEq, Prod.mk.injEq] at h
          obtain ⟨h1, _⟩ := h
          subst h1
          exact ⟨hr, hadopt⟩
        · rw [if_neg hne] at h
          simp only [Except.ok.injEq, Prod.mk.injEq] at h
          obtain ⟨h1, _⟩ := h
          subst h1
          exact ⟨hr, hl⟩
    · rw [if_neg hcond] at h
      exact syncProbe_acc sha md5 hmd5 now pfx probeOk uploadErr forceUpload translation
        fileBuffer st st' res h hr hl

/-- One `syncTranslationFileToBlob` call preserves accuracy of both
manifests: every manifest entry it writes describes a document already
durably stored at the key the entry describes. -/
theorem syncFile_acc (sha md5 : Bytes → Bytes) (hmd5 : ∀ a b, md5 a = md5 b → a = b)
    (now pfx : String) (probeOk : Bool) (uploadErr : Option String) (forceUpload : Bool)
    (translation : String) (fileBuffer : Bytes) (st st' : RunState) (res : SyncResult)
    (h : syncTranslationFileToBlob sha md5 now pfx probeOk uploadErr forceUpload translation
      fileBuffer st = .ok (st', res))
    (hr : manifestAccurate sha pfx st.remote.store st.remoteManifest)
    (hl : manifestAccurate sha pfx st.remote.store st.localManifest) :
    manifestAccurate sha pfx st'.remote.store st'.remoteManifest ∧
      manifestAccurate sha pfx st'.remote.store st'.localManifest := by
  cases hle : lookupA translation st.localManifest with
  | none =>
    simp only [syncTranslationFileToBlob, hle] at h
    exact syncRemoteCheck_acc sha md5 hmd5 now pfx probeOk uploadErr forceUpload translation
      fileBuffer st st' res h hr hl
  | some le =>
    simp only [syncTranslationFileToBlob, hle] at h
    by_cases hcond : forceUpload = false ∧ le.hash = sha fileBuffer
    · rw [if_pos hcond] at h
      simp only [Except.ok.injEq, Prod.mk.injEq] at h
      obtain ⟨h1, _⟩ := h
      subst h1
      refine ⟨?_, hl⟩
      apply manifestAccurate_setA sha pfx _ _ translation _ hr
      exact hl translation le hle
    · rw [if_neg hcond] at h
      exact syncRemoteCheck_acc sha md5 hmd5 now pfx probeOk uploadErr forceUpload translation
        fileBuffer st st' res h hr hl

/-- The per-translation loop preserves accuracy of both manifests from any
starting flags. -/
theorem syncLoop_acc (sha md5 : Bytes → Bytes) (hmd5 : ∀ a b, md5 a = md5 b → a = b)
    (now pfx : String) (probeOk : String → Bool) (uploadErr : String → Option String)
    (forceUpload : Bool) :
    ∀ (items : List (String × Bytes)) (st : RunState) (md ld q : Bool),
      manifestAccurate sha pfx st.remote.store st.remoteManifest →
      manifestAccurate sha pfx st.remote.store st.localManifest →
      manifestAccurate sha pfx
          (syncLoop sha md5 now pfx probeOk uploadErr forceUpload items st md ld q).st.remote.store
          (syncLoop sha md5 now pfx probeOk uploadErr forceUpload items st md ld q).st.remoteManifest ∧
        manifestAccurate sha pfx
          (syncLoop sha md5 now pfx probeOk uploadErr forceUpload items st md ld q).st.remote.store
          (syncLoop sha md5 now pfx probeOk uploadErr forceUpload items st md ld q).st.localManifest := by
  intro items
  induction items with
  | nil =>
    intro st md ld q hr hl
    exact ⟨hr, hl⟩
  | cons p rest ih =>
    obtain ⟨t, buf⟩ := p
    intro st md ld q hr hl
    cases q with
    | true =>
      simp only [syncLoop, if_pos rfl]
      exact ⟨hr, hl⟩
    | false =>
      simp only [syncLoop, Bool.false_eq_true, if_false]
      cases hsf : syncTranslationFileToBlob sha md5 now pfx (probeOk t) (uploadErr t)
          forceUpload t buf st with
      | ok pr =>
        obtain ⟨st', res⟩ := pr
        simp only [hsf]
        obtain ⟨hr', hl'⟩ := syncFile_acc sha md5 hmd5 now pfx (probeOk t) (uploadErr t)
          forceUpload t buf st st' res hsf hr hl
        exact ih st' _ _ _ hr' hl'
      | error msg =>
        simp only [hsf]
        exact ih st _ _ _ hr hl

/-- Claim C4: throughout every sync run — after any prefix of the
per-translation loop, and after the final manifest write — every entry of
the remote manifest and of the local manifest cache describes a translation
document durably stored at the remote location the entry describes.  An
entry is therefore only ever written after its document has been stored
(`hmd5` is the standard assumption that the MD5 etag identifies content). -/
theorem syncRun_manifest_invariant (sha md5 : Bytes → Bytes)
    (hmd5 : ∀ a b, md5 a = md5 b → a = b) (now pfx : String)
    (probeOk : String → Bool) (uploadErr : String → Option String)
    (manifestPutErr : Option String) (forceUpload : Bool)
    (encodeManifest : BlobManifest → Bytes) (items : List (String × Bytes)) (st : RunState)
    (hr : manifestAccurate sha pfx st.remote.store st.remoteManifest)
    (hl : manifestAccurate sha pfx st.remote.store st.localManifest) :
    (∀ (pre : List (String × Bytes)) (md ld q : Bool),
      manifestAccurate sha pfx
          (syncLoop sha md5 now pfx probeOk uploadErr forceUpload pre st md ld q).st.remote.store
          (syncLoop sha md5 now pfx probeOk uploadErr forceUpload pre st md ld q).st.remoteManifest ∧
        manifestAccurate sha pfx
          (syncLoop sha md5 now pfx probeOk uploadErr forceUpload pre st md ld q).st.remote.store
          (syncLoop sha md5 now pfx probeOk uploadErr forceUpload pre st md ld q).st.localManifest) ∧
      (manifestAccurate sha pfx
          (syncTranslationsWithBlob sha md5 now pfx probeOk uploadErr manifestPutErr forceUpload
            encodeManifest items st).st.remote.store
          (syncTranslationsWithBlob sha md5 now pfx probeOk uploadErr manifestPutErr forceUpload
            encodeManifest items st).st.remoteManifest ∧
        manifestAccurate sha pfx
          (syncTranslationsWithBlob sha md5 now pfx probeOk uploadErr manifestPutErr forceUpload
            encodeManifest items st).st.remote.store
          (syncTranslationsWithBlob sha md5 now pfx probeOk uploadErr manifestPutErr forceUpload
            encodeManifest items st).st.localManifest) := by
  constructor
  · intro pre md ld q
    exact syncLoop_acc sha md5 hmd5 now pfx probeOk uploadErr forceUpload pre st md ld q hr hl
  · obtain ⟨hr', hl'⟩ := syncLoop_acc sha md5 hmd5 now pfx probeOk uploadErr forceUpload
      items st false false false hr hl
    unfold syncTranslationsWithBlob
    by_cases hd : (syncLoop sha md5 now pfx probeOk uploadErr forceUpload
        items st false false false).manifestDirty
    · rw [if_pos hd]
      cases manifestPutErr with
      | none =>
        simp only [putBlobObject]
        exact ⟨manifestAccurate_manifest_put sha pfx _ _ _ hr',
          manifestAccurate_manifest_put sha pfx _ _ _ hl'⟩
      | some d =>
        simp only [putBlobObject]
        exact ⟨hr', hl'⟩
    · rw [if_neg hd]
      exact ⟨hr', hl'⟩

/-- Empty sync state used for the sync witnesses. -/
def wSyncState : RunState := ⟨⟨[], []⟩, [], []⟩

/-- Witness for C4 on a one-translation run from empty manifests. -/
theorem syncRun_manifest_invariant_witness :
    manifestAccurate (fun b => b) "translations"
        (syncTranslationsWithBlob (fun b => b) (fun b => b) "t" "translations" (fun _ => true)
          (fun _ => none) none false (fun _ => []) [("NLT", [1, 2, 3])] wSyncState).st.remote.store
        (syncTranslationsWithBlob (fun b => b) (fun b => b) "t" "translations" (fun _ => true)
          (fun _ => none) none false (fun _ => []) [("NLT", [1, 2, 3])] wSyncState).st.remoteManifest ∧
      manifestAccurate (fun b => b) "translations"
        (syncTranslationsWithBlob (fun b => b) (fun b => b) "t" "translations" (fun _ => true)
          (fun _ => none) none false (fun _ => []) [("NLT", [1, 2, 3])] wSyncState).st.remote.store
        (syncTranslationsWithBlob (fun b => b) (fun b => b) "t" "translations" (fun _ => true)
          (fun _ => none) none false (fun _ => []) [("NLT", [1, 2, 3])] wSyncState).st.localManifest :=
  (syncRun_manifest_invariant (fun b => b) (fun b => b) (fun _ _ h => h) "t" "translations"
    (fun _ => true) (fun _ => none) none false (fun _ => []) [("NLT", [1, 2, 3])] wSyncState
    (by intro t e h; simp [lookupA] at h) (by intro t e h; simp [lookupA] at h)).2

/-- The upload step with a successful PUT, written out. -/
theorem syncUpload_none_eq (sha : Bytes → Bytes) (now pfx : String)
    (translation : String) (fileBuffer : Bytes) (st : RunState) :
    syncUpload sha now pfx none translation fileBuffer st
      = .ok (⟨⟨setA (docKey pfx translation) fileBuffer st.remote.store,
            st.remote.uploads ++ [docKey pfx translation]⟩,
          setA translation ⟨sha fileBuffer, fileBuffer.length, now⟩ st.remoteManifest,
          setA translation ⟨sha fileBuffer, fileBuffer.length, now⟩ st.localManifest⟩,
        ⟨true,
          match lookupA translation st.localManifest with
          | none => true
          | some le =>
            decide (le.hash ≠ sha fileBuffer ∨ le.size ≠ fileBuffer.length)⟩) := rfl

/-- Claim C5: (i) when the local manifest cache entry's hash equals the
current file hash (and `forceUpload` is off) the sync performs zero upload
calls and leaves the remote store untouched, only copying the entry into the
in-memory remote manifest; (ii) when the file's hash is matched by neither
manifest entry nor the remote object's etag, the sync performs exactly one
upload call for the translation and records the new hash in both manifests. -/
theorem syncTranslationFile_uploadOnce_spec (sha md5 : Bytes → Bytes) (now pfx : String)
    (probeOk : Bool) (translation : String) (fileBuffer : Bytes) (st : RunState) :
    (∀ (uploadErr : Option String) (le : TranslationManifest),
      lookupA translation st.localManifest = some le → le.hash = sha fileBuffer →
      syncTranslationFileToBlob sha md5 now pfx probeOk uploadErr false translation
          fileBuffer st
        = .ok ({ st with remoteManifest := setA translation le st.remoteManifest },
            ⟨(match lookupA translation st.remoteManifest with
                | none => true
                | some re => decide (re.hash ≠ le.hash ∨ re.size ≠ le.size)),
              false⟩)) ∧
    ((∀ le, lookupA translation st.localManifest = some le → le.hash ≠ sha fileBuffer) →
      (∀ re, lookupA translation st.remoteManifest = some re → re.hash ≠ sha fileBuffer) →
      (∀ b, lookupA (docKey pfx translation) st.remote.store = some b →
        md5 b ≠ md5 fileBuffer) →
      ∃ st' res,
        syncTranslationFileToBlob sha md5 now pfx probeOk none false translation
            fileBuffer st = .ok (st', res) ∧
          st'.remote.uploads = st.remote.uploads ++ [docKey pfx translation] ∧
          lookupA translation st'.remoteManifest
            = some ⟨sha fileBuffer, fileBuffer.length, now⟩ ∧
          lookupA translation st'.localManifest
            = some ⟨sha fileBuffer, fileBuffer.length, now⟩) := by
  constructor
  · intro uploadErr le hle hh
    simp only [syncTranslationFileToBlob, hle]
    rw [if_pos ⟨trivial, hh⟩]
  · intro h1 h2 h3
    have hup : syncTranslationFileToBlob sha md5 now pfx probeOk none false translation
        fileBuffer st = syncUpload sha now pfx none translation fileBuffer st := by
      have hrc : syncRemoteCheck sha md5 now pfx probeOk none false translation
          fileBuffer st = syncProbe sha md5 now pfx probeOk none false translation
          fileBuffer st := by
        cases hre : lookupA translation st.remoteManifest with
        | none => simp only [syncRemoteCheck, hre]
        | some re =>
          simp only [syncRemoteCheck, hre]
          rw [if_neg (fun hc => h2 re hre hc.2)]
      have hpr : syncProbe sha md5 now pfx probeOk none false translation fileBuffer st
          = syncUpload sha now pfx none translation fileBuffer st := by
        cases probeOk with
        | false => simp only [syncProbe, Bool.false_eq_true, if_false]
        | true =>
          cases hsb : lookupA (docKey pfx translation) st.remote.store with
          | none =>
            simp only [syncProbe, Bool.false_eq_true, if_false, if_true,
              getBlobMetadata, hsb]
          | some b =>
            simp only [syncProbe, Bool.false_eq_true, if_false, if_true,
              getBlobMetadata, hsb]
            rw [if_neg (fun hc => h3 b hsb hc.1)]
      cases hle : lookupA translation st.localManifest with
      | none => simp only [syncTranslationFileToBlob, hle, hrc, hpr]
      | some le =>
        simp only [syncTranslationFileToBlob, hle]
        rw [if_neg (fun hc => h1 le hle hc.2), hrc, hpr]
    refine ⟨_, _, hup.trans (syncUpload_none_eq sha now pfx translation fileBuffer st), rfl,
      lookupA_setA_self _ _ _, lookupA_setA_self _ _ _⟩

/-- Source file and local manifest used to witness C5. -/
def wSyncedState : RunState :=
  ⟨⟨[(docKey "translations" "KJV", [7, 7])], []⟩,
    [("KJV", ⟨[7, 7], 2, "t0"⟩)], [("KJV", ⟨[7, 7], 2, "t0"⟩)]⟩

/-- Witness for C5: the unchanged file is skipped with no upload, and a
changed file from an empty state is uploaded exactly once with its manifest
entries set to the new hash. -/
theorem syncTranslationFile_uploadOnce_spec_witness :
    syncTranslationFileToBlob (fun b => b) (fun b => b) "t1" "translations" true none false
        "KJV" [7, 7] wSyncedState
      = .ok ({ wSyncedState with
            remoteManifest := setA "KJV" ⟨[7, 7], 2, "t0"⟩ wSyncedState.remoteManifest },
          ⟨false, false⟩) ∧
      ∃ st' res,
        syncTranslationFileToBlob (fun b => b) (fun b => b) "t1" "translations" true none
            false "NLT" [9] wSyncState = .ok (st', res) ∧
          st'.remote.uploads = wSyncState.remote.uploads ++ [docKey "translations" "NLT"] ∧
          lookupA "NLT" st'.remoteManifest = some ⟨[9], 1, "t1"⟩ ∧
          lookupA "NLT" st'.localManifest = some ⟨[9], 1, "t1"⟩ := by
  constructor
  · have := (syncTranslationFile_uploadOnce_spec (fun b => b) (fun b => b) "t1" "translations"
      true "KJV" [7, 7] wSyncedState).1 none ⟨[7, 7], 2, "t0"⟩
      (by with_unfolding_all rfl) rfl
    rw [this]
    with_unfolding_all rfl
  · exact (syncTranslationFile_uploadOnce_spec (fun b => b) (fun b => b) "t1" "translations"
      true "NLT" [9] wSyncState).2
      (by intro le h; simp [wSyncState, lookupA] at h)
      (by intro re h; simp [wSyncState, lookupA] at h)
      (by intro b h; simp [wSyncState, lookupA] at h)

/-- Once the quota flag is raised the loop processes nothing further. -/
theorem syncLoop_break (sha md5 : Bytes → Bytes) (now pfx : String)
    (probeOk : String → Bool) (uploadErr : String → Option String) (forceUpload : Bool)
    (items : List (String × Bytes)) (st : RunState) (md ld : Bool) :
    syncLoop sha md5 now pfx probeOk uploadErr forceUpload items st md ld true
      = ⟨st, md, ld, true, [], []⟩ := by
  cases items with
  | nil => rfl
  | cons p rest =>
    obtain ⟨t, buf⟩ := p
    simp [syncLoop]

/-- Claim C6: when syncing one translation throws, the error is logged as a
warning; a generic failure skips only that translation — the run continues
on the remaining queue from the unchanged state — while a quota-exceeded
failure aborts the whole remaining queue. -/
theorem syncLoop_failure_spec (sha md5 : Bytes → Bytes) (now pfx : String)
    (probeOk : String → Bool) (uploadErr : String → Option String) (forceUpload : Bool)
    (t : String) (buf : Bytes) (rest : List (String × Bytes)) (st : RunState)
    (md ld : Bool) (msg : String)
    (herr : syncTranslationFileToBlob sha md5 now pfx (probeOk t) (uploadErr t) forceUpload
      t buf st = .error msg) :
    (isQuotaExceededError msg = false →
      syncLoop sha md5 now pfx probeOk uploadErr forceUpload ((t, buf) :: rest) st md ld false
        = ⟨(syncLoop sha md5 now pfx probeOk uploadErr forceUpload rest st md ld false).st,
            (syncLoop sha md5 now pfx probeOk uploadErr forceUpload rest st md ld false).manifestDirty,
            (syncLoop sha md5 now pfx probeOk uploadErr forceUpload rest st md ld false).localManifestDirty,
            (syncLoop sha md5 now pfx probeOk uploadErr forceUpload rest st md ld false).quotaExceeded,
            t :: (syncLoop sha md5 now pfx probeOk uploadErr forceUpload rest st md ld false).attempted,
            ("Failed to upload " ++ t ++ " translation to Blob storage. " ++ msg)
              :: (syncLoop sha md5 now pfx probeOk uploadErr forceUpload rest st md ld false).warnings⟩) ∧
    (isQuotaExceededError msg = true →
      syncLoop sha md5 now pfx probeOk uploadErr forceUpload ((t, buf) :: rest) st md ld false
        = ⟨st, md, ld, true, [t],
            ["Failed to upload " ++ t ++ " translation to Blob storage. " ++ msg,
              "Blob storage quota exceeded. Skipping remaining translation uploads."]⟩) := by
  constructor
  · intro hq
    simp only [syncLoop, Bool.false_eq_true, if_false, herr, hq]
    simp
  · intro hq
    simp only [syncLoop, Bool.false_eq_true, if_false, herr, hq]
    rw [syncLoop_break]
    simp

/-- Witness for C6: a generic upload failure continues with the rest of the
queue, a quota-exceeded failure aborts it. -/
theorem syncLoop_failure_spec_witness :
    (syncLoop (fun b => b) (fun b => b) "t" "translations" (fun _ => true)
        (fun _ => some "boom") false [("KJV", [7]), ("NLT", [9])] wSyncState false false false
      = ⟨(syncLoop (fun b => b) (fun b => b) "t" "translations" (fun _ => true)
            (fun _ => some "boom") false [("NLT", [9])] wSyncState false false false).st,
          (syncLoop (fun b => b) (fun b => b) "t" "translations" (fun _ => true)
            (fun _ => some "boom") false [("NLT", [9])] wSyncState false false false).manifestDirty,
          (syncLoop (fun b => b) (fun b => b) "t" "translations" (fun _ => true)
            (fun _ => some "boom") false [("NLT", [9])] wSyncState false false false).localManifestDirty,
          (syncLoop (fun b => b) (fun b => b) "t" "translations" (fun _ => true)
            (fun _ => some "boom") false [("NLT", [9])] wSyncState false false false).quotaExceeded,
          "KJV" :: (syncLoop (fun b => b) (fun b => b) "t" "translations" (fun _ => true)
            (fun _ => some "boom") false [("NLT", [9])] wSyncState false false false).attempted,
          ("Failed to upload KJV translation to Blob storage. "
              ++ "Failed to upload translations/KJV/KJV_bible.json to Blob storage: boom")
            :: (syncLoop (fun b => b) (fun b => b) "t" "translations" (fun _ => true)
              (fun _ => some "boom") false [("NLT", [9])] wSyncState false false false).warnings⟩) ∧
    syncLoop (fun b => b) (fun b => b) "t" "translations" (fun _ => true)
        (fun _ => some "Storage quota exceeded") false [("KJV", [7]), ("NLT", [9])]
        wSyncState false false false
      = ⟨wSyncState, false, false, true, ["KJV"],
          ["Failed to upload KJV translation to Blob storage. "
              ++ "Failed to upload translations/KJV/KJV_bible.json to Blob storage: "
              ++ "Storage quota exceeded",
            "Blob storage quota exceeded. Skipping remaining translation uploads."]⟩ :=
  ⟨(syncLoop_failure_spec (fun b => b) (fun b => b) "t" "translations" (fun _ => true)
      (fun _ => some "boom") false "KJV" [7] [("NLT", [9])] wSyncState false false
      ("Failed to upload translations/KJV/KJV_bible.json to Blob storage: boom")
      (by with_unfolding_all rfl)).1 (by with_unfolding_all rfl),
    (syncLoop_failure_spec (fun b => b) (fun b => b) "t" "translations" (fun _ => true)
      (fun _ => some "Storage quota exceeded") false "KJV" [7] [("NLT", [9])] wSyncState
      false false
      ("Failed to upload translations/KJV/KJV_bible.json to Blob storage: "
        ++ "Storage quota exceeded")
      (by with_unfolding_all rfl)).2 (by with_unfolding_all rfl)⟩

end BibleApi
